import Mathlib

/-!
# System monitor display: ring buffers, height mapping and frame rendering

A shallow embedding of `sketch/system_display.h` and `sketch/system_display.cpp`.

Modelling conventions.

* A `float` is a rational (`ℚ`): every binary32 value is one.  Storing and comparing floats
  is exact; each arithmetic operation of the source (`/ 100.0f`, `* 8`, `+ 0.5f`) is the exact
  operation followed by `float_round`, the IEEE 754 binary32 rounding to nearest, ties to
  even.  NaN and infinities are outside the model.
* C arrays are lists: `float values[kHistoryLen]` is a `List ℚ` of length `kHistoryLen`,
  a frame `uint8_t[kMatrixWidth * kMatrixHeight]` is a `List Nat` of length 104.  A write
  `a[i] = v` is `List.set`, a read `a[i]` is `List.getD _ i 0`.
* `size_t` / `uint8_t` values are natural numbers; the 16-bit intermediate of `set_pixel`
  and the final `uint8_t` store carry their explicit reductions modulo `2^16` and `2^8`.
* A function that updates an object through a pointer is a function from the old object to
  the new one; its null-pointer guard (`if (!p) return;`) has no object to act on.  A pointer
  that is only read, and whose absence is observable, is an `Option`.
* The LED matrix driver (`Arduino_LED_Matrix`) is external: it is represented by the list of
  calls it has received.  `delay` has no effect on the state and is not recorded.
-/

namespace SystemDisplay

/-! ## Constants and types (`system_display.h`) -/

/-- Number of slots of each metric ring buffer (`kHistoryLen`). -/
def kHistoryLen : Nat := 60

/-- Number of columns of the LED matrix (`kMatrixWidth`). -/
def kMatrixWidth : Nat := 13

/-- Number of rows of the LED matrix (`kMatrixHeight`). -/
def kMatrixHeight : Nat := 8

/-- Largest shade value (`kMaxShade`). -/
def kMaxShade : Nat := 7

/-- Number of metric types (`METRIC_COUNT`); `METRIC_CPU = 0`, `METRIC_MEMORY = 1`,
`METRIC_DISK = 2`. -/
abbrev METRIC_COUNT : Nat := 3

/-- The `MetricBuffer` struct: slot array, next write position and number of valid entries. -/
structure MetricBuffer where
  values : List ℚ
  head : Nat
  count : Nat

/-- Calls received by the external `Arduino_LED_Matrix` driver. -/
inductive MatrixCall where
  | begin : MatrixCall
  | setGrayscaleBits (bits : Nat) : MatrixCall
  | clear : MatrixCall
  | draw (frame : List Nat) : MatrixCall
  deriving DecidableEq

/-- The `DisplayState` struct; `matrix` is the log of driver calls, oldest first. -/
structure DisplayState where
  metrics : Fin METRIC_COUNT → MetricBuffer
  matrix : List MatrixCall
  matrix_ready : Bool

/-- The two globals of `system_display.cpp`. -/
structure Globals where
  g_display_state : DisplayState
  g_brightness : Nat

/-! ## Frame primitives -/

/-- `clear_frame`: `memset(frame, 0, kMatrixWidth * kMatrixHeight)` on a frame array. -/
def clear_frame (_frame : List Nat) : List Nat :=
  List.replicate (kMatrixWidth * kMatrixHeight) 0

/-- `set_pixel`, reading the global `g_brightness`. -/
def set_pixel (g_brightness : Nat) (frame : List Nat) (x y shade : Nat) : List Nat :=
  if x ≥ kMatrixWidth ∨ y ≥ kMatrixHeight then frame
  else
    let index := y * kMatrixWidth + x
    let clipped := if shade > kMaxShade then kMaxShade else shade
    let scaled := (clipped * g_brightness) % 2 ^ 16
    let scaled := ((scaled + kMaxShade / 2) / kMaxShade) % 2 ^ 16
    frame.set index (scaled % 2 ^ 8)

/-! ## Metric ring buffer -/

/-- `metric_buffer_init`: reset `head` and `count` and zero all `kHistoryLen` slots. -/
def metric_buffer_init (_buffer : MetricBuffer) : MetricBuffer :=
  { values := List.replicate kHistoryLen 0, head := 0, count := 0 }

/-- `metric_buffer_push`: write at `head`, advance `head` modulo `kHistoryLen`, and count up
to `kHistoryLen`. -/
def metric_buffer_push (buffer : MetricBuffer) (value : ℚ) : MetricBuffer :=
  { values := buffer.values.set buffer.head value
    head := (buffer.head + 1) % kHistoryLen
    count := if buffer.count < kHistoryLen then buffer.count + 1 else buffer.count }

/-- `metric_buffer_get_recent`: `0.0` for an absent or empty buffer; otherwise the slot
`recent_index` steps behind the last written one, with `recent_index` clamped to
`count - 1`.  While `count ≤ kHistoryLen` no `size_t` operation of the source wraps:
`head + kHistoryLen - 1` and `last_index + kHistoryLen - recent_index` are non-negative. -/
def metric_buffer_get_recent (buffer : Option MetricBuffer) (recent_index : Nat) : ℚ :=
  match buffer with
  | none => 0
  | some b =>
    if b.count = 0 then 0
    else
      let recent_index := if recent_index ≥ b.count then b.count - 1 else recent_index
      let last_index := (b.head + kHistoryLen - 1) % kHistoryLen
      let index := (last_index + kHistoryLen - recent_index) % kHistoryLen
      b.values.getD index 0

/-! ## Height mapper -/

/-- Round a rational to the nearest integer, ties to the even one. -/
def round_half_even (y : ℚ) : ℤ :=
  let n := ⌊y⌋
  let r := y - n
  if r < 1 / 2 then n
  else if r > 1 / 2 then n + 1
  else if n % 2 = 0 then n else n + 1

/-- IEEE 754 binary32 rounding of an exact result (round to nearest, ties to even): with `e`
the binary exponent of `x`, not below the minimum normal exponent `-126` (so that subnormals
share the spacing `2^(-149)`), `x` is rounded to a multiple of `2^(e - 23)`.  Overflow to
infinity (results of magnitude `2^128` and more) is not modelled; the operands of
`value_to_height` stay below `9`. -/
def float_round (x : ℚ) : ℚ :=
  if x = 0 then 0
  else
    let e := max (Int.log 2 |x|) (-126)
    let q := (2 : ℚ) ^ (e - 23)
    round_half_even (x / q) * q

/-- `value_to_height`: the two comparisons are exact, the division, the multiplication and
the addition are binary32 operations (`100.0f`, `8.0f` and `0.5f` are binary32 values), and
the cast `(uint8_t)(scaled + 0.5f)` truncates a positive value, which is its floor. -/
def value_to_height (value : ℚ) : Nat :=
  if value ≤ 0 then 0
  else if value ≥ 100 then kMatrixHeight
  else
    let normalized := float_round (value / 100)
    let scaled := float_round (normalized * (kMatrixHeight : ℚ))
    ⌊float_round (scaled + 1 / 2)⌋.toNat % 2 ^ 8

/-- Reference height mapper, following the specification text: `value ≤ 0` gives `0`,
`value ≥ 100` gives `displayHeight`, otherwise round-half-up of
`value / 100 * displayHeight`, written `⌊value * displayHeight / 100 + 1/2⌋`. -/
def valueToHeight_spec (value : ℚ) (displayHeight : Nat) : Int :=
  if value ≤ 0 then 0
  else if value ≥ 100 then displayHeight
  else ⌊value * displayHeight / 100 + 1 / 2⌋

/-! ## Display façade -/

/-- The pre-fill of `system_display_init` for one buffer: `metric_buffer_init` followed by
`kMatrixWidth` pushes of `5.0`. -/
def init_metric (buffer : MetricBuffer) : MetricBuffer :=
  (List.range kMatrixWidth).foldl (fun b _ => metric_buffer_push b 5)
    (metric_buffer_init buffer)

/-- The frame that iteration `scroll_pos` of the startup animation hands to `draw`: after
`clear_frame`, the columns `kMatrixWidth - 1 - col` for `col ≤ scroll_pos` are filled. -/
def startup_frame (g_brightness : Nat) (frame : List Nat) (scroll_pos : Nat) : List Nat :=
  (List.range (scroll_pos + 1)).foldl
    (fun f col =>
      let x := kMatrixWidth - 1 - col
      (List.range kMatrixHeight).foldl (fun f y => set_pixel g_brightness f x y kMaxShade) f)
    (clear_frame frame)

/-- The state of `system_display_init` just before its last statement: buffers pre-filled,
`matrix_ready` false, driver brought up and the `kMatrixWidth` animation frames drawn.  The
local `startup_frame` array is carried from one iteration to the next. -/
def system_display_init_startup (s : Globals) : Globals :=
  let metrics := (List.finRange METRIC_COUNT).foldl
    (fun m i => Function.update m i (init_metric (m i))) s.g_display_state.metrics
  let matrix := s.g_display_state.matrix ++
    [MatrixCall.begin, MatrixCall.setGrayscaleBits 3, MatrixCall.clear]
  let anim := (List.range kMatrixWidth).foldl
    (fun (p : List Nat × List MatrixCall) scroll_pos =>
      let f := startup_frame s.g_brightness p.1 scroll_pos
      (f, p.2 ++ [MatrixCall.draw f]))
    (List.replicate (kMatrixWidth * kMatrixHeight) 0, matrix)
  { s with g_display_state := { metrics := metrics, matrix := anim.2, matrix_ready := false } }

/-- `system_display_init`. -/
def system_display_init (s : Globals) : Globals :=
  let s1 := system_display_init_startup s
  { s1 with g_display_state := { s1.g_display_state with matrix_ready := true } }

/-- `system_display_push_sample`; `type` is the integer value of the `MetricType` argument. -/
def system_display_push_sample (s : Globals) (type : Nat) (value : ℚ) : Globals :=
  if h : type < METRIC_COUNT then
    { s with g_display_state :=
      { s.g_display_state with
        metrics := Function.update s.g_display_state.metrics ⟨type, h⟩
          (metric_buffer_push (s.g_display_state.metrics ⟨type, h⟩) value) } }
  else s

/-- The frame built by `draw_bar_graph_on_matrix` from the `heights` array. -/
def bar_graph_frame (g_brightness : Nat) (frame : List Nat) (heights : List Nat) : List Nat :=
  (List.range kMatrixWidth).foldl
    (fun f col =>
      let h := heights.getD col 0
      let h := if h > kMatrixHeight then kMatrixHeight else h
      (List.range h).foldl
        (fun f row =>
          let y := (kMatrixHeight - 1) - row
          set_pixel g_brightness f col y kMaxShade)
        f)
    (clear_frame frame)

/-- `draw_bar_graph_on_matrix`; `heights` is `none` for a null pointer. -/
def draw_bar_graph_on_matrix (s : Globals) (heights : Option (List Nat)) : Globals :=
  match heights with
  | none => s
  | some hs =>
    if s.g_display_state.matrix_ready = false then s
    else
      let frame := bar_graph_frame s.g_brightness
        (List.replicate (kMatrixWidth * kMatrixHeight) 0) hs
      { s with g_display_state :=
        { s.g_display_state with
          matrix := s.g_display_state.matrix ++ [MatrixCall.draw frame] } }

/-- `buffer_to_heights`: the `heights` array after the call; `buffer` is `none` for a null
pointer. -/
def buffer_to_heights (buffer : Option MetricBuffer) (heights : List Nat) : List Nat :=
  match buffer with
  | none => heights
  | some b =>
    (List.range kMatrixWidth).foldl
      (fun hs col =>
        let recent_index := kMatrixWidth - 1 - col
        let v := metric_buffer_get_recent (some b) recent_index
        hs.set col (value_to_height v))
      heights

/-- `system_display_set_brightness`.  The parameter is a `uint8_t`: an integer argument is
converted on entry, which reduces it modulo `2^8`. -/
def system_display_set_brightness (s : Globals) (brightness : Nat) : Globals :=
  let brightness := brightness % 2 ^ 8
  { s with g_brightness := if brightness > kMaxShade then kMaxShade else brightness }

/-! ## Sequences of operations -/

/-- Push a list of samples, first element first. -/
def push_all (buffer : MetricBuffer) (vs : List ℚ) : MetricBuffer :=
  vs.foldl metric_buffer_push buffer

/-- The zero-initialised `MetricBuffer` of static storage. -/
def zero_buffer : MetricBuffer :=
  { values := List.replicate kHistoryLen 0, head := 0, count := 0 }

/-- The globals at program start: `g_display_state` zero-initialised, `g_brightness`
initialised to `kMaxShade`. -/
def boot : Globals :=
  { g_display_state := { metrics := fun _ => zero_buffer, matrix := [], matrix_ready := false }
    g_brightness := kMaxShade }

/-- Calls of the public API. -/
inductive ApiCall where
  | init : ApiCall
  | push_sample (type : Nat) (value : ℚ) : ApiCall
  | draw_bar_graph (heights : Option (List Nat)) : ApiCall
  | set_brightness (brightness : Nat) : ApiCall

/-- Effect of one API call on the globals. -/
def step (s : Globals) : ApiCall → Globals
  | ApiCall.init => system_display_init s
  | ApiCall.push_sample type value => system_display_push_sample s type value
  | ApiCall.draw_bar_graph heights => draw_bar_graph_on_matrix s heights
  | ApiCall.set_brightness brightness => system_display_set_brightness s brightness

/-- Effect of a sequence of API calls. -/
def run (s : Globals) (calls : List ApiCall) : Globals :=
  calls.foldl step s

/-- The ring-buffer invariant: `count ≤ kHistoryLen` and `head < kHistoryLen`. -/
def buffer_inv (b : MetricBuffer) : Prop :=
  b.count ≤ kHistoryLen ∧ b.head < kHistoryLen

instance (b : MetricBuffer) : Decidable (buffer_inv b) := by
  unfold buffer_inv; infer_instance

/-- The buffer `b` holds the history `vs` (oldest first) of all values pushed since
`metric_buffer_init`: the slot `i % kHistoryLen` holds the `i`-th pushed value for each of the
last `kHistoryLen` pushes, and slots never written hold `0`. -/
def Holds (b : MetricBuffer) (vs : List ℚ) : Prop :=
  b.values.length = kHistoryLen ∧
  b.head = vs.length % kHistoryLen ∧
  b.count = min vs.length kHistoryLen ∧
  (∀ i, i < vs.length → vs.length ≤ i + kHistoryLen →
    b.values[i % kHistoryLen]? = vs[i]?) ∧
  (∀ j, vs.length ≤ j → j < kHistoryLen → b.values[j]? = some 0)

/-- The statements of `system_display_init` in program order: the buffer pre-fill loop,
`matrix_ready = false`, the three driver bring-up calls, one iteration of the animation loop
for each `scroll_pos`, and `matrix_ready = true`. -/
inductive InitStmt where
  | prefill : InitStmt
  | ready_false : InitStmt
  | matrix_begin : InitStmt
  | matrix_setGrayscaleBits : InitStmt
  | matrix_clear : InitStmt
  | animate (scroll_pos : Nat) : InitStmt
  | ready_true : InitStmt

/-- Effect of one statement of `system_display_init` on the globals.  The local
`startup_frame` array is cleared at the start of each animation iteration, so its previous
content does not reach the drawn frame. -/
def init_stmt_exec (s : Globals) : InitStmt → Globals
  | InitStmt.prefill =>
    { s with g_display_state := { s.g_display_state with
        metrics := (List.finRange METRIC_COUNT).foldl
          (fun m i => Function.update m i (init_metric (m i))) s.g_display_state.metrics } }
  | InitStmt.ready_false =>
    { s with g_display_state := { s.g_display_state with matrix_ready := false } }
  | InitStmt.matrix_begin =>
    { s with g_display_state := { s.g_display_state with
        matrix := s.g_display_state.matrix ++ [MatrixCall.begin] } }
  | InitStmt.matrix_setGrayscaleBits =>
    { s with g_display_state := { s.g_display_state with
        matrix := s.g_display_state.matrix ++ [MatrixCall.setGrayscaleBits 3] } }
  | InitStmt.matrix_clear =>
    { s with g_display_state := { s.g_display_state with
        matrix := s.g_display_state.matrix ++ [MatrixCall.clear] } }
  | InitStmt.animate scroll_pos =>
    { s with g_display_state := { s.g_display_state with
        matrix := s.g_display_state.matrix ++
          [MatrixCall.draw (startup_frame s.g_brightness
            (List.replicate (kMatrixWidth * kMatrixHeight) 0) scroll_pos)] } }
  | InitStmt.ready_true =>
    { s with g_display_state := { s.g_display_state with matrix_ready := true } }

/-- The body of `system_display_init` as a list of statements. -/
def system_display_init_stmts : List InitStmt :=
  [InitStmt.prefill, InitStmt.ready_false, InitStmt.matrix_begin,
    InitStmt.matrix_setGrayscaleBits, InitStmt.matrix_clear]
  ++ (List.range kMatrixWidth).map InitStmt.animate ++ [InitStmt.ready_true]

/-- Every cell of a frame is a shade in `0..kMaxShade`. -/
def frame_in_range (frame : List Nat) : Prop :=
  ∀ c ∈ frame, c ≤ kMaxShade

/-- Every frame that the driver log records as drawn is in range. -/
def log_in_range (matrix : List MatrixCall) : Prop :=
  ∀ frame, MatrixCall.draw frame ∈ matrix → frame_in_range frame

/-- A sequence of `set_pixel` calls `(x, y, shade)` on one frame, first call first. -/
def set_pixels (g_brightness : Nat) (frame : List Nat) (ops : List (Nat × Nat × Nat)) :
    List Nat :=
  ops.foldl (fun f op => set_pixel g_brightness f op.1 op.2.1 op.2.2) frame

/-- Push a list of samples to one metric type with `system_display_push_sample`. -/
def push_samples (s : Globals) (type : Nat) (ps : List ℚ) : Globals :=
  ps.foldl (fun st p => system_display_push_sample st type p) s

/-! ## Ring buffer: history representation -/

theorem holds_init (b0 : MetricBuffer) : Holds (metric_buffer_init b0) [] := by
  refine ⟨by simp [metric_buffer_init], by simp [metric_buffer_init, kHistoryLen],
    by simp [metric_buffer_init], ?_, ?_⟩
  · intro i hi; simp at hi
  · intro j _ hj
    simp [metric_buffer_init, List.getElem?_replicate, hj]

theorem holds_push {b : MetricBuffer} {vs : List ℚ} (h : Holds b vs) (v : ℚ) :
    Holds (metric_buffer_push b v) (vs ++ [v]) := by
  obtain ⟨hlen, hhead, hcount, hrecent, hzero⟩ := h
  simp only [kHistoryLen] at hlen hhead hcount hrecent hzero
  refine ⟨by simp [metric_buffer_push, hlen, kHistoryLen], ?_, ?_, ?_, ?_⟩
  · simp only [metric_buffer_push, kHistoryLen, List.length_append, List.length_singleton]
    omega
  · simp only [metric_buffer_push, kHistoryLen, List.length_append, List.length_singleton]
    split <;> omega
  · intro i hi hle
    simp only [kHistoryLen, List.length_append, List.length_singleton] at hi hle ⊢
    simp only [metric_buffer_push]
    by_cases hin : i = vs.length
    · subst hin
      rw [hhead, List.getElem?_set_self (by omega)]
      simp
    · have hne : b.head ≠ i % 60 := by omega
      rw [List.getElem?_set_ne hne, List.getElem?_append_left (by omega)]
      exact hrecent i (by omega) (by omega)
  · intro j hj hj60
    simp only [kHistoryLen, List.length_append, List.length_singleton] at hj hj60
    simp only [metric_buffer_push]
    have hne : b.head ≠ j := by omega
    rw [List.getElem?_set_ne hne]
    exact hzero j (by omega) hj60

theorem push_all_append (b : MetricBuffer) (vs ws : List ℚ) :
    push_all b (vs ++ ws) = push_all (push_all b vs) ws := by
  simp [push_all, List.foldl_append]

theorem holds_push_all (b0 : MetricBuffer) (vs : List ℚ) :
    Holds (push_all (metric_buffer_init b0) vs) vs := by
  induction vs using List.reverseRecOn with
  | nil => exact holds_init b0
  | append_singleton vs v ih =>
    rw [push_all_append]
    exact holds_push ih v

/-- Reading a buffer that holds the history `vs`: `recent_index = k` below `count` gives the
value pushed `k` steps before the latest one. -/
theorem holds_get_recent {b : MetricBuffer} {vs : List ℚ} (h : Holds b vs) (k : Nat)
    (hk : k < b.count) :
    vs[vs.length - 1 - k]? = some (metric_buffer_get_recent (some b) k) := by
  obtain ⟨hlen, hhead, hcount, hrecent, -⟩ := h
  simp only [kHistoryLen] at hlen hhead hcount hrecent
  have hk1 : k < vs.length := by omega
  have hk2 : k < 60 := by omega
  have hc : b.count ≠ 0 := by omega
  have hidx : ((b.head + 60 - 1) % 60 + 60 - k) % 60 = (vs.length - 1 - k) % 60 := by omega
  have hget := hrecent (vs.length - 1 - k) (by omega) (by omega)
  have hlt : (vs.length - 1 - k) % 60 < b.values.length := by omega
  simp only [metric_buffer_get_recent, hc, if_false, kHistoryLen, ge_iff_le,
    if_neg (Nat.not_le.mpr hk), hidx, List.getD_eq_getElem?_getD]
  rw [← hget, List.getElem?_eq_getElem hlt]
  simp

/-- The clamp of `metric_buffer_get_recent`: any index at or beyond `count` reads like
`count - 1`. -/
theorem get_recent_clamp_eq (b : MetricBuffer) (ri : Nat) (hri : b.count ≤ ri) :
    metric_buffer_get_recent (some b) ri = metric_buffer_get_recent (some b) (b.count - 1) := by
  by_cases hc : b.count = 0
  · simp [metric_buffer_get_recent, hc]
  · have h1 : b.count - 1 < b.count := by omega
    simp only [metric_buffer_get_recent, hc, if_false, ge_iff_le, if_pos hri,
      if_neg (Nat.not_le.mpr h1)]

theorem init_metrics_eq (m : Fin METRIC_COUNT → MetricBuffer) :
    (List.finRange METRIC_COUNT).foldl (fun m i => Function.update m i (init_metric (m i))) m
      = fun i => init_metric (m i) := by
  have hr : List.finRange METRIC_COUNT = [0, 1, 2] := by decide
  rw [hr]
  funext i
  fin_cases i <;> simp [Function.update, Fin.ext_iff]
  congr

theorem system_display_init_metrics (s : Globals) (i : Fin METRIC_COUNT) :
    (system_display_init s).g_display_state.metrics i
      = init_metric (s.g_display_state.metrics i) := by
  simp only [system_display_init, system_display_init_startup, init_metrics_eq]

theorem buffer_inv_init (b0 : MetricBuffer) : buffer_inv (metric_buffer_init b0) := by
  simp [buffer_inv, metric_buffer_init, kHistoryLen]

theorem buffer_inv_push (b : MetricBuffer) (v : ℚ) (h : buffer_inv b) :
    buffer_inv (metric_buffer_push b v) := by
  obtain ⟨hc, _⟩ := h
  simp only [kHistoryLen] at hc
  refine ⟨?_, ?_⟩
  · simp only [metric_buffer_push, kHistoryLen]
    split <;> omega
  · simp only [metric_buffer_push, kHistoryLen]
    omega

theorem buffer_inv_push_all (b : MetricBuffer) (vs : List ℚ) (h : buffer_inv b) :
    buffer_inv (push_all b vs) := by
  induction vs generalizing b with
  | nil => exact h
  | cons v vs ih => exact ih _ (buffer_inv_push b v h)

theorem init_metric_eq_push_all (b : MetricBuffer) :
    init_metric b = push_all (metric_buffer_init b) (List.replicate kMatrixWidth 5) := by
  simp [init_metric, push_all, kMatrixWidth, List.range_succ]

theorem buffer_inv_system_display_init (s : Globals) (i : Fin METRIC_COUNT) :
    buffer_inv ((system_display_init s).g_display_state.metrics i) := by
  rw [system_display_init_metrics, init_metric_eq_push_all]
  exact buffer_inv_push_all _ _ (buffer_inv_init _)

theorem buffer_inv_step (s : Globals) (c : ApiCall)
    (h : ∀ i, buffer_inv (s.g_display_state.metrics i)) :
    ∀ i, buffer_inv ((step s c).g_display_state.metrics i) := by
  intro i
  cases c with
  | init => exact buffer_inv_system_display_init s i
  | push_sample type value =>
    simp only [step, system_display_push_sample]
    split
    · rename_i ht
      by_cases hi : i = ⟨type, ht⟩
      · subst hi
        simpa using buffer_inv_push _ value (h _)
      · simpa [Function.update, hi] using h i
    · exact h i
  | draw_bar_graph heights =>
    simp only [step, draw_bar_graph_on_matrix]
    split
    · exact h i
    · split
      · exact h i
      · exact h i
  | set_brightness brightness => exact h i

theorem buffer_inv_run (s : Globals) (calls : List ApiCall)
    (h : ∀ i, buffer_inv (s.g_display_state.metrics i)) :
    ∀ i, buffer_inv ((run s calls).g_display_state.metrics i) := by
  induction calls generalizing s with
  | nil => exact h
  | cons c cs ih => exact ih (step s c) (buffer_inv_step s c h)

/-! ## Claims about the ring buffer -/

/-- C1: after pushing a sequence `vs` of `n ≥ 1` values into a freshly initialised buffer
(also for `n > kHistoryLen`, after `head` has wrapped), `metric_buffer_get_recent` at every
`k < count` returns the value pushed `k` steps before the latest push, which is the element
of `vs` at 0-based position `n - 1 - k`; at `k = 0` it returns the last pushed value. -/
theorem get_recent_kth_latest (b0 : MetricBuffer) (vs : List ℚ) (hn : 1 ≤ vs.length) :
    (∀ k, k < (push_all (metric_buffer_init b0) vs).count →
      vs[vs.length - 1 - k]?
        = some (metric_buffer_get_recent (some (push_all (metric_buffer_init b0) vs)) k)) ∧
    vs.getLast?
      = some (metric_buffer_get_recent (some (push_all (metric_buffer_init b0) vs)) 0) := by
  have h := holds_push_all b0 vs
  refine ⟨fun k hk => holds_get_recent h k hk, ?_⟩
  have hc : 0 < (push_all (metric_buffer_init b0) vs).count := by
    rw [h.2.2.1]; simp only [kHistoryLen]; omega
  rw [List.getLast?_eq_getElem?]
  exact holds_get_recent h 0 hc

/-- Witness for C1: 62 pushes of `0, 1, …, 61` wrap the 60-slot ring; index `59` then reads
the value `2` and index `0` the last value `61`. -/
theorem get_recent_kth_latest_witness :
    1 ≤ ((List.range 62).map (fun i : Nat => (i : ℚ))).length ∧
    metric_buffer_get_recent (some (push_all (metric_buffer_init zero_buffer)
      ((List.range 62).map (fun i : Nat => (i : ℚ))))) 59 = 2 ∧
    metric_buffer_get_recent (some (push_all (metric_buffer_init zero_buffer)
      ((List.range 62).map (fun i : Nat => (i : ℚ))))) 0 = 61 := by
  have h := get_recent_kth_latest zero_buffer ((List.range 62).map (fun i : Nat => (i : ℚ)))
    (by simp)
  refine ⟨by simp, ?_, ?_⟩
  · have h1 := h.1 59 (by rw [(holds_push_all _ _).2.2.1]; simp [kHistoryLen])
    simpa using h1.symm
  · have h1 := h.1 0 (by rw [(holds_push_all _ _).2.2.1]; simp [kHistoryLen])
    simpa using h1.symm

/-- C2 (clamp law): for a buffer reached from `metric_buffer_init` by pushing a non-empty
sequence `vs`, every `recent_index ≥ count` reads the same value as `count - 1`, and that
value is the oldest retained sample: the element of `vs` at 0-based position `n - count`,
the earliest pushed value not yet overwritten (so it is `0` only if that sample is `0`). -/
theorem get_recent_clamp_oldest (b0 : MetricBuffer) (vs : List ℚ) (hne : vs ≠ [])
    (recent_index : Nat)
    (hri : recent_index ≥ (push_all (metric_buffer_init b0) vs).count) :
    metric_buffer_get_recent (some (push_all (metric_buffer_init b0) vs)) recent_index
      = metric_buffer_get_recent (some (push_all (metric_buffer_init b0) vs))
          ((push_all (metric_buffer_init b0) vs).count - 1) ∧
    vs[vs.length - (push_all (metric_buffer_init b0) vs).count]?
      = some (metric_buffer_get_recent (some (push_all (metric_buffer_init b0) vs))
          recent_index) := by
  have h := holds_push_all b0 vs
  have hlen : 0 < vs.length := List.length_pos.mpr hne
  have hcount := h.2.2.1
  simp only [kHistoryLen] at hcount
  have hclamp := get_recent_clamp_eq _ recent_index hri
  refine ⟨hclamp, ?_⟩
  rw [hclamp, ← holds_get_recent h _ (by omega)]
  congr 1
  omega

/-- Witness for C2: after pushing `7, 8, 9` the count is `3`, and index `5` reads the oldest
retained sample `7`. -/
theorem get_recent_clamp_oldest_witness :
    ([7, 8, 9] : List ℚ) ≠ [] ∧
    5 ≥ (push_all (metric_buffer_init zero_buffer) [7, 8, 9]).count ∧
    metric_buffer_get_recent (some (push_all (metric_buffer_init zero_buffer) [7, 8, 9])) 5
      = 7 := by
  have hc : 5 ≥ (push_all (metric_buffer_init zero_buffer) [7, 8, 9]).count := by decide
  have h := get_recent_clamp_oldest zero_buffer [7, 8, 9] (by simp) 5 hc
  refine ⟨by simp, hc, ?_⟩
  have hcount : (push_all (metric_buffer_init zero_buffer) [7, 8, 9]).count = 3 := by decide
  have h2 := h.2
  rw [hcount] at h2
  simpa using h2.symm

/-- C4: after `n` pushes into a freshly initialised buffer, `count = min n kHistoryLen` and
`head = n % kHistoryLen`.  Once `n ≥ kHistoryLen` a further push leaves `count` at
`kHistoryLen`, changes the slot array only at `head`, and `head` is exactly the slot that
`metric_buffer_get_recent` reads for the oldest retained value (`recent_index = count - 1`),
which holds the element of the history at position `n - kHistoryLen`. -/
theorem count_head_after_pushes (b0 : MetricBuffer) (vs : List ℚ) :
    (push_all (metric_buffer_init b0) vs).count = min vs.length kHistoryLen ∧
    (push_all (metric_buffer_init b0) vs).head = vs.length % kHistoryLen ∧
    (kHistoryLen ≤ vs.length → ∀ v : ℚ,
      (metric_buffer_push (push_all (metric_buffer_init b0) vs) v).count = kHistoryLen ∧
      (metric_buffer_push (push_all (metric_buffer_init b0) vs) v).values
        = (push_all (metric_buffer_init b0) vs).values.set
            (push_all (metric_buffer_init b0) vs).head v ∧
      (((push_all (metric_buffer_init b0) vs).head + kHistoryLen - 1) % kHistoryLen
          + kHistoryLen - ((push_all (metric_buffer_init b0) vs).count - 1)) % kHistoryLen
        = (push_all (metric_buffer_init b0) vs).head ∧
      (push_all (metric_buffer_init b0) vs).values[(push_all (metric_buffer_init b0) vs).head]?
        = some (metric_buffer_get_recent (some (push_all (metric_buffer_init b0) vs))
            ((push_all (metric_buffer_init b0) vs).count - 1)) ∧
      vs[vs.length - kHistoryLen]?
        = some (metric_buffer_get_recent (some (push_all (metric_buffer_init b0) vs))
            ((push_all (metric_buffer_init b0) vs).count - 1))) := by
  have h := holds_push_all b0 vs
  obtain ⟨hlen, hhead, hcount, hrecent, -⟩ := h
  refine ⟨hcount, hhead, ?_⟩
  intro hfull v
  have hold := holds_get_recent (holds_push_all b0 vs)
    ((push_all (metric_buffer_init b0) vs).count - 1)
  generalize push_all (metric_buffer_init b0) vs = b at *
  simp only [kHistoryLen] at hlen hhead hcount hrecent hfull ⊢
  have hc : b.count = 60 := by omega
  have hidx : ((b.head + 60 - 1) % 60 + 60 - (b.count - 1)) % 60 = b.head := by omega
  have hhd : b.head < b.values.length := by omega
  refine ⟨by simp [metric_buffer_push, kHistoryLen, hc], rfl, hidx, ?_, ?_⟩
  · simp only [metric_buffer_get_recent, kHistoryLen, hidx, ge_iff_le,
      List.getD_eq_getElem?_getD]
    rw [if_neg (by omega), if_neg (by omega), hidx, List.getElem?_eq_getElem hhd]
    simp
  · rw [← hold (by omega)]
    congr 1
    omega

/-- Witness for C4: after 61 pushes of `0, …, 60` the count is saturated, and a further push
of `99` keeps `count = kHistoryLen`; the oldest retained value is `1`. -/
theorem count_head_after_pushes_witness :
    kHistoryLen ≤ ((List.range 61).map (fun i : Nat => (i : ℚ))).length ∧
    (metric_buffer_push (push_all (metric_buffer_init zero_buffer)
      ((List.range 61).map (fun i : Nat => (i : ℚ)))) 99).count = kHistoryLen ∧
    metric_buffer_get_recent (some (push_all (metric_buffer_init zero_buffer)
      ((List.range 61).map (fun i : Nat => (i : ℚ)))))
      ((push_all (metric_buffer_init zero_buffer)
        ((List.range 61).map (fun i : Nat => (i : ℚ)))).count - 1) = 1 := by
  have hlen : kHistoryLen ≤ ((List.range 61).map (fun i : Nat => (i : ℚ))).length := by
    simp [kHistoryLen]
  have h := (count_head_after_pushes zero_buffer
    ((List.range 61).map (fun i : Nat => (i : ℚ)))).2.2 hlen 99
  refine ⟨hlen, h.1, ?_⟩
  have h2 := h.2.2.2.2
  simpa [kHistoryLen] using h2.symm

/-- C5: the invariant `count ≤ kHistoryLen ∧ head < kHistoryLen` holds after
`metric_buffer_init`, is preserved by `metric_buffer_push` for every pushed value, and holds
for each of the three metric buffers in every state reached by API calls after
`system_display_init` from any prior state, and in every state reached from program start. -/
theorem buffer_invariant :
    (∀ b0, buffer_inv (metric_buffer_init b0)) ∧
    (∀ b v, buffer_inv b → buffer_inv (metric_buffer_push b v)) ∧
    (∀ s0 calls i,
      buffer_inv ((run (system_display_init s0) calls).g_display_state.metrics i)) ∧
    (∀ calls i, buffer_inv ((run boot calls).g_display_state.metrics i)) := by
  refine ⟨buffer_inv_init, buffer_inv_push, ?_, ?_⟩
  · intro s0 calls i
    exact buffer_inv_run _ calls (buffer_inv_system_display_init s0) i
  · intro calls i
    exact buffer_inv_run boot calls
      (fun _ => by simp [boot, zero_buffer, buffer_inv, kHistoryLen]) i

/-! ## Height mapper and `buffer_to_heights` -/

theorem foldl_set_range_length {α : Type} (g : Nat → α) (n : Nat) (l : List α) :
    ((List.range n).foldl (fun l i => l.set i (g i)) l).length = l.length := by
  induction n with
  | zero => simp
  | succ m ihm =>
    rw [List.range_succ, List.foldl_append]
    simpa using ihm

/-- A loop `for i < n: a[i] = g i` over a list: written cells hold `g i`, the others are
untouched. -/
theorem foldl_set_range_getElem? {α : Type} (g : Nat → α) (n : Nat) (l : List α) (j : Nat) :
    ((List.range n).foldl (fun l i => l.set i (g i)) l)[j]?
      = if j < n ∧ j < l.length then some (g j) else l[j]? := by
  induction n with
  | zero => simp
  | succ n ih =>
    rw [List.range_succ, List.foldl_append]
    simp only [List.foldl_cons, List.foldl_nil]
    have hlen := foldl_set_range_length g n l
    by_cases hj : n = j
    · subst hj
      by_cases hl : n < l.length
      · rw [List.getElem?_set_self (by omega)]
        simp [hl]
      · rw [List.getElem?_eq_none (by rw [List.length_set]; omega), if_neg (by omega),
          List.getElem?_eq_none (by omega)]
    · rw [List.getElem?_set_ne hj, ih]
      have h1 : (j < n + 1 ∧ j < l.length) ↔ (j < n ∧ j < l.length) := by omega
      simp only [h1]

/-! ### Binary32 rounding -/

theorem round_half_even_intCast (n : ℤ) : round_half_even (n : ℚ) = n := by
  simp [round_half_even]

theorem floor_le_round_half_even (y : ℚ) : ⌊y⌋ ≤ round_half_even y := by
  unfold round_half_even
  simp only
  split
  · exact le_refl _
  · split
    · omega
    · split <;> omega

theorem round_half_even_le_floor_succ (y : ℚ) : round_half_even y ≤ ⌊y⌋ + 1 := by
  unfold round_half_even
  simp only
  split
  · omega
  · split
    · omega
    · split <;> omega

theorem round_half_even_mono {y z : ℚ} (h : y ≤ z) : round_half_even y ≤ round_half_even z := by
  by_cases hf : ⌊y⌋ = ⌊z⌋
  · unfold round_half_even
    simp only
    rw [← hf]
    have hr : y - ⌊y⌋ ≤ z - ⌊y⌋ := by linarith
    split_ifs <;> first | omega | (exfalso; linarith)
  · have hlt : ⌊y⌋ < ⌊z⌋ := lt_of_le_of_ne (Int.floor_mono h) hf
    have h1 := round_half_even_le_floor_succ y
    have h2 := floor_le_round_half_even z
    omega

theorem float_round_binade (x : ℚ) (e : ℤ) (h1 : (2 : ℚ) ^ e ≤ x) (h2 : x < (2 : ℚ) ^ (e + 1)) :
    float_round x
      = round_half_even (x / (2 : ℚ) ^ (max e (-126) - 23)) * (2 : ℚ) ^ (max e (-126) - 23) := by
  have hx : 0 < x := lt_of_lt_of_le (by positivity) h1
  have hlog : Int.log 2 |x| = e := by
    rw [abs_of_pos hx]
    have ha : e ≤ Int.log 2 x := (Int.zpow_le_iff_le_log (by norm_num) hx).1 (by exact_mod_cast h1)
    have hb : Int.log 2 x < e + 1 :=
      (Int.lt_zpow_iff_log_lt (by norm_num) hx).1 (by exact_mod_cast h2)
    omega
  unfold float_round
  rw [if_neg (ne_of_gt hx)]
  simp only [hlog]

theorem float_round_zero : float_round 0 = 0 := by
  simp [float_round]

/-- A positive rational lies in the binade of its binary logarithm. -/
theorem binade_of_pos (x : ℚ) (hx : 0 < x) :
    (2 : ℚ) ^ (Int.log 2 x) ≤ x ∧ x < (2 : ℚ) ^ (Int.log 2 x + 1) := by
  have h1 := Int.zpow_log_le_self (b := 2) (r := x) (by norm_num) hx
  have h2 := Int.lt_zpow_succ_log_self (b := 2) (by norm_num) x
  exact ⟨by exact_mod_cast h1, by exact_mod_cast h2⟩

/-- Within the binade `[2^e, 2^(e+1))` the rounded value stays in `[2^e, 2^(e+1)]`. -/
theorem float_round_binade_bounds (x : ℚ) (e : ℤ) (h1 : (2 : ℚ) ^ e ≤ x)
    (h2 : x < (2 : ℚ) ^ (e + 1)) (he : -126 ≤ e) :
    (2 : ℚ) ^ e ≤ float_round x ∧ float_round x ≤ (2 : ℚ) ^ (e + 1) := by
  rw [float_round_binade x e h1 h2, max_eq_left he]
  have hq : (0 : ℚ) < 2 ^ (e - 23) := by positivity
  have hlo : (2 : ℚ) ^ e = ((2 ^ 23 : ℤ) : ℚ) * 2 ^ (e - 23) := by
    rw [zpow_sub₀ (by norm_num)]; push_cast; field_simp; ring
  have hhi : (2 : ℚ) ^ (e + 1) = ((2 ^ 24 : ℤ) : ℚ) * 2 ^ (e - 23) := by
    rw [zpow_sub₀ (by norm_num), zpow_add₀ (by norm_num)]; push_cast; field_simp; ring
  constructor
  · rw [hlo]
    apply mul_le_mul_of_nonneg_right _ hq.le
    have : ((2 ^ 23 : ℤ) : ℚ) ≤ x / 2 ^ (e - 23) := by
      rw [le_div_iff₀ hq, ← hlo]; exact h1
    have hm := round_half_even_mono this
    rw [round_half_even_intCast] at hm
    exact_mod_cast hm
  · rw [hhi]
    apply mul_le_mul_of_nonneg_right _ hq.le
    have : x / 2 ^ (e - 23) ≤ ((2 ^ 24 : ℤ) : ℚ) := by
      rw [div_le_iff₀ hq, ← hhi]; exact h2.le
    have hm := round_half_even_mono this
    rw [round_half_even_intCast] at hm
    exact_mod_cast hm

theorem float_round_pos_eq (x : ℚ) (hx : 0 < x) :
    float_round x
      = round_half_even (x / (2 : ℚ) ^ (max (Int.log 2 x) (-126) - 23))
          * (2 : ℚ) ^ (max (Int.log 2 x) (-126) - 23) := by
  unfold float_round
  rw [if_neg (ne_of_gt hx), abs_of_pos hx]

theorem float_round_nonneg (x : ℚ) (hx : 0 ≤ x) : 0 ≤ float_round x := by
  rcases eq_or_lt_of_le hx with h | h
  · rw [← h, float_round_zero]
  · rw [float_round_pos_eq x h]
    apply mul_nonneg _ (by positivity)
    have h1 : (0 : ℤ) ≤ ⌊x / (2 : ℚ) ^ (max (Int.log 2 x) (-126) - 23)⌋ :=
      Int.floor_nonneg.mpr (by positivity)
    have h2 := floor_le_round_half_even (x / (2 : ℚ) ^ (max (Int.log 2 x) (-126) - 23))
    exact_mod_cast le_trans h1 h2

/-- A positive value rounds to at most the top of its (clamped) binade. -/
theorem float_round_le_top (x : ℚ) (hx : 0 < x) :
    float_round x ≤ (2 : ℚ) ^ (max (Int.log 2 x) (-126) + 1) := by
  rw [float_round_pos_eq x hx]
  generalize he : max (Int.log 2 x) (-126) = e
  have hle : Int.log 2 x ≤ e := by rw [← he]; exact le_max_left _ _
  have hq : (0 : ℚ) < 2 ^ (e - 23) := by positivity
  have hhi : (2 : ℚ) ^ (e + 1) = ((2 ^ 24 : ℤ) : ℚ) * 2 ^ (e - 23) := by
    rw [zpow_sub₀ (by norm_num), zpow_add₀ (by norm_num)]; push_cast; field_simp; ring
  have hx2 : x ≤ (2 : ℚ) ^ (e + 1) :=
    le_trans (binade_of_pos x hx).2.le (zpow_le_zpow_right₀ (by norm_num) (by omega))
  rw [hhi]
  apply mul_le_mul_of_nonneg_right _ hq.le
  have : x / 2 ^ (e - 23) ≤ ((2 ^ 24 : ℤ) : ℚ) := by
    rw [div_le_iff₀ hq, ← hhi]; exact hx2
  have hm := round_half_even_mono this
  rw [round_half_even_intCast] at hm
  exact_mod_cast hm

/-- Rounding to binary32 is monotone on the non-negative rationals. -/
theorem float_round_mono {x y : ℚ} (hx : 0 ≤ x) (h : x ≤ y) : float_round x ≤ float_round y := by
  rcases eq_or_lt_of_le hx with h0 | h0
  · rw [← h0, float_round_zero]
    exact float_round_nonneg y (le_trans hx h)
  · have hy : 0 < y := lt_of_lt_of_le h0 h
    have hlog : Int.log 2 x ≤ Int.log 2 y := Int.log_mono_right h0 h
    by_cases he : max (Int.log 2 x) (-126) = max (Int.log 2 y) (-126)
    · rw [float_round_pos_eq x h0, float_round_pos_eq y hy, he]
      apply mul_le_mul_of_nonneg_right _ (by positivity)
      have hdiv : x / (2 : ℚ) ^ (max (Int.log 2 y) (-126) - 23)
          ≤ y / (2 : ℚ) ^ (max (Int.log 2 y) (-126) - 23) :=
        div_le_div_of_nonneg_right h (by positivity)
      exact_mod_cast round_half_even_mono hdiv
    · have hlt : max (Int.log 2 x) (-126) + 1 ≤ Int.log 2 y := by
        rcases max_cases (Int.log 2 x) (-126) with ⟨h1, h2⟩ | ⟨h1, h2⟩ <;>
          rcases max_cases (Int.log 2 y) (-126) with ⟨h3, h4⟩ | ⟨h3, h4⟩ <;> omega
      have hy126 : -126 ≤ Int.log 2 y := by
        have := le_max_right (Int.log 2 x) (-126)
        omega
      have hb := binade_of_pos y hy
      calc float_round x ≤ (2 : ℚ) ^ (max (Int.log 2 x) (-126) + 1) := float_round_le_top x h0
        _ ≤ (2 : ℚ) ^ (Int.log 2 y) := zpow_le_zpow_right₀ (by norm_num) hlt
        _ ≤ float_round y := (float_round_binade_bounds y _ hb.1 hb.2 hy126).1

/-- Every `m * 2^j` with `m < 2^24` and `j ≥ -149` is a binary32 value: rounding keeps it. -/
theorem float_round_exact (m : ℕ) (j : ℤ) (hm : m < 2 ^ 24) (hj : -149 ≤ j) :
    float_round ((m : ℚ) * 2 ^ j) = (m : ℚ) * 2 ^ j := by
  rcases Nat.eq_zero_or_pos m with h0 | h0
  · subst h0; simp [float_round_zero]
  · have hx : (0 : ℚ) < (m : ℚ) * 2 ^ j := by positivity
    rw [float_round_pos_eq _ hx]
    generalize he : max (Int.log 2 ((m : ℚ) * 2 ^ j)) (-126) = e
    have hlogx : Int.log 2 ((m : ℚ) * 2 ^ j) < 24 + j := by
      apply (Int.lt_zpow_iff_log_lt (by norm_num) hx).1
      rw [zpow_add₀ (by norm_num)]
      apply mul_lt_mul_of_pos_right _ (by positivity)
      push_cast
      exact_mod_cast hm
    have hk : 0 ≤ j - (e - 23) := by
      rcases max_cases (Int.log 2 ((m : ℚ) * 2 ^ j)) (-126) with ⟨h1, h2⟩ | ⟨h1, h2⟩ <;> omega
    obtain ⟨kn, hkn⟩ : ∃ kn : ℕ, (kn : ℤ) = j - (e - 23) :=
      ⟨(j - (e - 23)).toNat, Int.toNat_of_nonneg hk⟩
    have hj2 : j = (kn : ℤ) + (e - 23) := by omega
    have hdiv : (m : ℚ) * 2 ^ j / 2 ^ (e - 23) = ((m * 2 ^ kn : ℤ) : ℚ) := by
      rw [div_eq_iff (by positivity), hj2, zpow_add₀ (by norm_num), zpow_natCast]
      push_cast
      ring
    rw [hdiv, round_half_even_intCast, hj2, zpow_add₀ (by norm_num), zpow_natCast]
    push_cast
    ring

theorem float_round_eq_self (x : ℚ) (m : ℕ) (j : ℤ) (hm : m < 2 ^ 24) (hj : -149 ≤ j)
    (hx : x = (m : ℚ) * 2 ^ j) : float_round x = x := by
  rw [hx]
  exact float_round_exact m j hm hj

theorem round_half_even_le_add_half (y : ℚ) : (round_half_even y : ℚ) ≤ y + 1 / 2 := by
  have hf : (⌊y⌋ : ℚ) ≤ y := Int.floor_le y
  unfold round_half_even
  simp only
  split_ifs with h1 h2 h3
  · linarith
  · push_cast; linarith
  · linarith
  · push_cast; linarith

/-- Rounding error from above: below `2^E` a value gains at most half a unit in the last
place of that range. -/
theorem float_round_le_add (x : ℚ) (E : ℤ) (hx : 0 ≤ x) (hE : x < (2 : ℚ) ^ E)
    (h125 : -125 ≤ E) : float_round x ≤ x + (2 : ℚ) ^ (E - 25) := by
  rcases eq_or_lt_of_le hx with h0 | h0
  · rw [← h0, float_round_zero]
    positivity
  · rw [float_round_pos_eq x h0]
    generalize he : max (Int.log 2 x) (-126) = e
    have hlog : Int.log 2 x < E := (Int.lt_zpow_iff_log_lt (by norm_num) h0).1 (by exact_mod_cast hE)
    have heE : e + 1 ≤ E := by
      rcases max_cases (Int.log 2 x) (-126) with ⟨h1, h2⟩ | ⟨h1, h2⟩ <;> omega
    have hq : (0 : ℚ) < 2 ^ (e - 23) := by positivity
    have h1 := round_half_even_le_add_half (x / 2 ^ (e - 23))
    have h2 : (round_half_even (x / 2 ^ (e - 23)) : ℚ) * 2 ^ (e - 23)
        ≤ (x / 2 ^ (e - 23) + 1 / 2) * 2 ^ (e - 23) :=
      mul_le_mul_of_nonneg_right h1 hq.le
    have h3 : (x / 2 ^ (e - 23) + 1 / 2) * 2 ^ (e - 23) = x + (2 : ℚ) ^ (e - 24) := by
      have : (2 : ℚ) ^ (e - 23) = 2 ^ (e - 24) * 2 := by
        rw [← zpow_add_one₀ (by norm_num)]; congr 1; ring
      field_simp
      rw [this]; ring
    have h4 : (2 : ℚ) ^ (e - 24) ≤ 2 ^ (E - 25) := zpow_le_zpow_right₀ (by norm_num) (by omega)
    linarith

/-- The binary32 value of `value / 100 * 8 + 0.5` is monotone in `value ≥ 0`. -/
theorem scaled_rounded_mono {a b : ℚ} (ha : 0 ≤ a) (hab : a ≤ b) :
    float_round (float_round (float_round (a / 100) * 8) + 1 / 2)
      ≤ float_round (float_round (float_round (b / 100) * 8) + 1 / 2) := by
  have h1 : float_round (a / 100) ≤ float_round (b / 100) :=
    float_round_mono (by positivity) (by linarith)
  have h1n : 0 ≤ float_round (a / 100) := float_round_nonneg _ (by positivity)
  have h2 : float_round (float_round (a / 100) * 8) ≤ float_round (float_round (b / 100) * 8) :=
    float_round_mono (by positivity) (by linarith)
  have h2n : 0 ≤ float_round (float_round (a / 100) * 8) := float_round_nonneg _ (by positivity)
  exact float_round_mono (by positivity) (by linarith)

theorem scaled_rounded_hundred :
    float_round (float_round (float_round ((100 : ℚ) / 100) * 8) + 1 / 2) = 17 / 2 := by
  have e1 : float_round ((100 : ℚ) / 100) = 1 :=
    (float_round_eq_self _ 1 0 (by norm_num) (by norm_num) (by norm_num)).trans (by norm_num)
  have e2 : float_round ((1 : ℚ) * 8) = 8 :=
    (float_round_eq_self _ 1 3 (by norm_num) (by norm_num) (by norm_num)).trans (by norm_num)
  have e3 : float_round ((8 : ℚ) + 1 / 2) = 17 / 2 :=
    (float_round_eq_self _ 17 (-1) (by norm_num) (by norm_num) (by norm_num)).trans
      (by norm_num)
  rw [e1, e2, e3]

theorem scaled_rounded_bounds (v : ℚ) (h0 : 0 ≤ v) (h100 : v ≤ 100) :
    0 ≤ float_round (float_round (float_round (v / 100) * 8) + 1 / 2) ∧
    float_round (float_round (float_round (v / 100) * 8) + 1 / 2) ≤ 17 / 2 := by
  have h1n : 0 ≤ float_round (v / 100) := float_round_nonneg _ (by positivity)
  have h2n : 0 ≤ float_round (float_round (v / 100) * 8) := float_round_nonneg _ (by positivity)
  refine ⟨float_round_nonneg _ (by positivity), ?_⟩
  rw [← scaled_rounded_hundred]
  exact scaled_rounded_mono h0 h100

/-- Between the two clipping branches `value_to_height` is the floor of the binary32 value of
`value / 100 * 8 + 0.5`. -/
theorem value_to_height_mid (v : ℚ) (h0 : 0 < v) (h100 : v < 100) :
    (value_to_height v : ℤ)
      = ⌊float_round (float_round (float_round (v / 100) * 8) + 1 / 2)⌋ := by
  obtain ⟨hlo, hhi⟩ := scaled_rounded_bounds v h0.le h100.le
  have hnn : 0 ≤ ⌊float_round (float_round (float_round (v / 100) * 8) + 1 / 2)⌋ :=
    Int.floor_nonneg.mpr hlo
  have hlt : ⌊float_round (float_round (float_round (v / 100) * 8) + 1 / 2)⌋ < 9 := by
    rw [Int.floor_lt]; push_cast; linarith
  unfold value_to_height
  rw [if_neg (not_le.mpr h0), if_neg (not_le.mpr h100)]
  simp only [kMatrixHeight, Nat.cast_ofNat]
  omega

theorem value_to_height_le (v : ℚ) : value_to_height v ≤ 8 := by
  by_cases h0 : v ≤ 0
  · simp [value_to_height, h0]
  · by_cases h100 : v ≥ 100
    · simp [value_to_height, h0, h100, kMatrixHeight]
    · have h := value_to_height_mid v (lt_of_not_le h0) (lt_of_not_le h100)
      have hb := (scaled_rounded_bounds v (lt_of_not_le h0).le (lt_of_not_le h100).le).2
      have hlt : ⌊float_round (float_round (float_round (v / 100) * 8) + 1 / 2)⌋ < 9 := by
        rw [Int.floor_lt]; push_cast; linarith
      omega

theorem value_to_height_hundred : value_to_height 100 = 8 := by
  simp [value_to_height, kMatrixHeight]

theorem value_to_height_monotone {a b : ℚ} (hab : a ≤ b) :
    value_to_height a ≤ value_to_height b := by
  by_cases ha : a ≤ 0
  · simp [value_to_height, ha]
  · by_cases hb : b ≥ 100
    · have hb0 : ¬ b ≤ 0 := by
        have : (100 : ℚ) ≤ b := hb
        intro h; linarith
      have h8 : value_to_height b = 8 := by
        unfold value_to_height
        rw [if_neg hb0, if_pos hb]
        rfl
      rw [h8]
      exact value_to_height_le a
    · have ha0 : 0 < a := lt_of_not_le ha
      have hb100 : b < 100 := lt_of_not_le hb
      have h1 := value_to_height_mid a ha0 (by linarith)
      have h2 := value_to_height_mid b (by linarith) hb100
      have h3 := Int.floor_mono (scaled_rounded_mono ha0.le hab)
      omega

/-- At the exact half-way points `12.5 k - 6.25` every operation is exact and the height
is `k`. -/
theorem value_to_height_threshold (k : ℕ) (h1 : 1 ≤ k) (h8 : k ≤ 8) :
    value_to_height (25 * (k : ℚ) / 2 - 25 / 4) = k := by
  have hk1 : (1 : ℚ) ≤ k := by exact_mod_cast h1
  have hk8 : (k : ℚ) ≤ 8 := by exact_mod_cast h8
  have hm : ((2 * k - 1 : ℕ) : ℚ) = 2 * (k : ℚ) - 1 := by
    rw [Nat.cast_sub (by omega)]; push_cast; ring
  have e1 : float_round ((25 * (k : ℚ) / 2 - 25 / 4) / 100) = (2 * (k : ℚ) - 1) / 16 := by
    rw [float_round_eq_self _ (2 * k - 1) (-4) (by omega) (by norm_num)
      (by rw [hm]; norm_num; ring)]
    ring
  have e2 : float_round ((2 * (k : ℚ) - 1) / 16 * 8) = (2 * (k : ℚ) - 1) / 2 := by
    rw [float_round_eq_self _ (2 * k - 1) (-1) (by omega) (by norm_num)
      (by rw [hm]; norm_num; ring)]
    ring
  have e3 : float_round ((2 * (k : ℚ) - 1) / 2 + 1 / 2) = k := by
    rw [float_round_eq_self _ k 0 (by omega) (by norm_num) (by norm_num; ring)]
    ring
  have h := value_to_height_mid (25 * (k : ℚ) / 2 - 25 / 4) (by linarith) (by linarith)
  rw [e1, e2, e3, Int.floor_natCast] at h
  exact_mod_cast h

/-- The exact reference is a lower bound, and the reference plus one an upper bound. -/
theorem value_to_height_sandwich (v : ℚ) :
    valueToHeight_spec v 8 ≤ (value_to_height v : ℤ) ∧
    (value_to_height v : ℤ) ≤ valueToHeight_spec v 8 + 1 := by
  by_cases h0 : v ≤ 0
  · simp [value_to_height, valueToHeight_spec, h0]
  · by_cases h100 : v ≥ 100
    · simp [value_to_height, valueToHeight_spec, h0, h100, kMatrixHeight]
    · have hv0 : 0 < v := lt_of_not_le h0
      have hv100 : v < 100 := lt_of_not_le h100
      have href : valueToHeight_spec v 8 = ⌊v * 8 / 100 + 1 / 2⌋ := by
        simp [valueToHeight_spec, h0, h100]
      rw [href]
      have hnn : 0 ≤ ⌊v * 8 / 100 + 1 / 2⌋ := Int.floor_nonneg.mpr (by positivity)
      have hlt9 : ⌊v * 8 / 100 + 1 / 2⌋ < 9 := by
        rw [Int.floor_lt]; push_cast; linarith
      obtain ⟨r, hr⟩ : ∃ r : ℕ, (r : ℤ) = ⌊v * 8 / 100 + 1 / 2⌋ :=
        ⟨⌊v * 8 / 100 + 1 / 2⌋.toNat, Int.toNat_of_nonneg hnn⟩
      have hr8 : r ≤ 8 := by omega
      have hfl : (r : ℚ) ≤ v * 8 / 100 + 1 / 2 := by
        have := Int.floor_le (v * 8 / 100 + 1 / 2)
        rw [← hr] at this
        exact_mod_cast this
      have hfu : v * 8 / 100 + 1 / 2 < (r : ℚ) + 1 := by
        have := Int.lt_floor_add_one (v * 8 / 100 + 1 / 2)
        rw [← hr] at this
        exact_mod_cast this
      rw [← hr]
      constructor
      · rcases Nat.eq_zero_or_pos r with hz | hp
        · rw [hz]; exact_mod_cast Nat.zero_le _
        · have ht := value_to_height_threshold r hp hr8
          have hm : value_to_height (25 * (r : ℚ) / 2 - 25 / 4) ≤ value_to_height v :=
            value_to_height_monotone (by linarith)
          rw [ht] at hm
          exact_mod_cast hm
      · by_cases h8 : r = 8
        · have := value_to_height_le v
          omega
        · have ht := value_to_height_threshold (r + 1) (by omega) (by omega)
          have hm : value_to_height v ≤ value_to_height (25 * ((r + 1 : ℕ) : ℚ) / 2 - 25 / 4) :=
            value_to_height_monotone (by push_cast; linarith)
          rw [ht] at hm
          exact_mod_cast hm

/-- Away from the rounding thresholds the binary32 pipeline gives the exact reference. -/
theorem value_to_height_eq_spec_of_gap (v : ℚ)
    (hgap : v * 8 / 100 + 1 / 2 + 1 / 2 ^ 19 ≤ (⌊v * 8 / 100 + 1 / 2⌋ : ℚ) + 1) :
    (value_to_height v : ℤ) = valueToHeight_spec v 8 := by
  have hs := value_to_height_sandwich v
  by_cases h0 : v ≤ 0
  · simp [value_to_height, valueToHeight_spec, h0]
  · by_cases h100 : v ≥ 100
    · simp [value_to_height, valueToHeight_spec, h0, h100, kMatrixHeight]
    · have hv0 : 0 < v := lt_of_not_le h0
      have hv100 : v < 100 := lt_of_not_le h100
      have href : valueToHeight_spec v 8 = ⌊v * 8 / 100 + 1 / 2⌋ := by
        simp [valueToHeight_spec, h0, h100]
      rw [href] at hs ⊢
      have hone : float_round (1 : ℚ) = 1 :=
        float_round_eq_self _ 1 0 (by norm_num) (by norm_num) (by norm_num)
      have height : float_round (8 : ℚ) = 8 :=
        float_round_eq_self _ 1 3 (by norm_num) (by norm_num) (by norm_num)
      have h1n : 0 ≤ float_round (v / 100) := float_round_nonneg _ (by positivity)
      have h1u : float_round (v / 100) ≤ 1 := by
        have h := float_round_mono (x := v / 100) (y := 1) (by positivity) (by linarith)
        rwa [hone] at h
      have h2n : 0 ≤ float_round (float_round (v / 100) * 8) :=
        float_round_nonneg _ (by positivity)
      have h2u : float_round (float_round (v / 100) * 8) ≤ 8 := by
        have h := float_round_mono (x := float_round (v / 100) * 8) (y := 8) (by positivity)
          (by linarith)
        rwa [height] at h
      have e1 := float_round_le_add (v / 100) 0 (by positivity) (by norm_num; linarith)
        (by norm_num)
      have e2 := float_round_le_add (float_round (v / 100) * 8) 4 (by positivity)
        (by norm_num; linarith) (by norm_num)
      have e3 := float_round_le_add (float_round (float_round (v / 100) * 8) + 1 / 2) 4
        (by positivity) (by norm_num; linarith) (by norm_num)
      norm_num at e1 e2 e3
      have hmid := value_to_height_mid v hv0 hv100
      have hlt : float_round (float_round (float_round (v / 100) * 8) + 1 / 2)
          < ((⌊v * 8 / 100 + 1 / 2⌋ + 1 : ℤ) : ℚ) := by
        push_cast
        norm_num at hgap
        linarith
      have hfl := Int.floor_lt.mpr hlt
      omega

theorem round_half_even_up (y : ℚ) (n : ℤ) (h1 : (n : ℚ) + 1 / 2 < y) (h2 : y < (n : ℚ) + 1) :
    round_half_even y = n + 1 := by
  have hf : ⌊y⌋ = n := Int.floor_eq_iff.mpr ⟨by linarith, h2⟩
  unfold round_half_even
  simp only [hf]
  rw [if_neg (by linarith), if_pos (by linarith)]

theorem round_half_even_tie (n : ℤ) :
    round_half_even ((n : ℚ) + 1 / 2) = if n % 2 = 0 then n else n + 1 := by
  have hf : ⌊(n : ℚ) + 1 / 2⌋ = n := Int.floor_eq_iff.mpr ⟨by linarith, by linarith⟩
  unfold round_half_even
  simp only [hf]
  rw [if_neg (by linarith), if_neg (by linarith)]

theorem value_to_height_below_threshold : value_to_height (13107199 / 2097152) = 1 := by
  have e1 : float_round ((13107199 / 2097152 : ℚ) / 100) = 16777215 / 2 ^ 28 := by
    rw [float_round_binade _ (-5) (by norm_num) (by norm_num)]
    have hq : (max (-5 : ℤ) (-126) - 23) = -28 := by norm_num
    rw [hq, round_half_even_up _ 16777214 (by norm_num) (by norm_num)]
    norm_num
  have e2 : float_round ((16777215 : ℚ) / 2 ^ 28 * 8) = 16777215 / 2 ^ 25 :=
    (float_round_eq_self _ 16777215 (-25) (by norm_num) (by norm_num) (by norm_num)).trans
      (by norm_num)
  have e3 : float_round ((16777215 : ℚ) / 2 ^ 25 + 1 / 2) = 1 := by
    rw [float_round_binade _ (-1) (by norm_num) (by norm_num)]
    have hq : (max (-1 : ℤ) (-126) - 23) = -24 := by norm_num
    have hy : ((16777215 : ℚ) / 2 ^ 25 + 1 / 2) / 2 ^ (-24 : ℤ) = ((16777215 : ℤ) : ℚ) + 1 / 2 := by
      norm_num
    rw [hq, hy, round_half_even_tie]
    norm_num
  have h := value_to_height_mid (13107199 / 2097152) (by norm_num) (by norm_num)
  rw [e1, e2, e3] at h
  have hf : ⌊(1 : ℚ)⌋ = 1 := Int.floor_one
  rw [hf] at h
  exact_mod_cast h

theorem valueToHeight_spec_below_threshold : valueToHeight_spec (13107199 / 2097152) 8 = 0 := by
  unfold valueToHeight_spec
  rw [if_neg (by norm_num), if_neg (by norm_num)]
  exact Int.floor_eq_iff.mpr ⟨by norm_num, by norm_num⟩

/-- C3: for every buffer and every 13-entry `heights` array, `buffer_to_heights` leaves
`heights[col] = value_to_height (metric_buffer_get_recent buffer (12 - col))` for every
`col < 13`; for samples `v1, …, v13` pushed in that order into an initialised buffer,
`heights[i]` is the height of the `i`-th sample (0-based), so the first entry is the oldest
and the last the newest; thirteen pushes of `100` give thirteen heights `8`. -/
theorem buffer_to_heights_order (heights : List Nat) (hlen : heights.length = kMatrixWidth) :
    (∀ (b : MetricBuffer) (col : Nat), col < 13 →
      (buffer_to_heights (some b) heights)[col]?
        = some (value_to_height (metric_buffer_get_recent (some b) (12 - col)))) ∧
    (∀ (b0 : MetricBuffer) (vs : List ℚ), vs.length = 13 → ∀ i, i < 13 →
      (buffer_to_heights (some (push_all (metric_buffer_init b0) vs)) heights)[i]?
        = (vs.map value_to_height)[i]?) ∧
    (∀ b0 : MetricBuffer,
      buffer_to_heights (some (push_all (metric_buffer_init b0) (List.replicate 13 100)))
        heights = List.replicate 13 8) := by
  simp only [kMatrixWidth] at hlen
  have hcol : ∀ (b : MetricBuffer) (col : Nat), col < 13 →
      (buffer_to_heights (some b) heights)[col]?
        = some (value_to_height (metric_buffer_get_recent (some b) (12 - col))) := by
    intro b col hc
    simp only [buffer_to_heights, kMatrixWidth]
    rw [foldl_set_range_getElem?
      (fun col => value_to_height (metric_buffer_get_recent (some b) (13 - 1 - col)))]
    rw [if_pos ⟨hc, by omega⟩]
  have hlen2 : ∀ b : MetricBuffer, (buffer_to_heights (some b) heights).length = 13 := by
    intro b
    simp only [buffer_to_heights, kMatrixWidth]
    rw [foldl_set_range_length
      (fun col => value_to_height (metric_buffer_get_recent (some b) (13 - 1 - col)))]
    exact hlen
  have hvs : ∀ (b0 : MetricBuffer) (vs : List ℚ), vs.length = 13 → ∀ i, i < 13 →
      (buffer_to_heights (some (push_all (metric_buffer_init b0) vs)) heights)[i]?
        = (vs.map value_to_height)[i]? := by
    intro b0 vs hvl i hi
    rw [hcol _ i hi]
    have hc : 12 - i < (push_all (metric_buffer_init b0) vs).count := by
      rw [(holds_push_all b0 vs).2.2.1]; simp only [kHistoryLen]; omega
    have h := holds_get_recent (holds_push_all b0 vs) (12 - i) hc
    have hidx : vs.length - 1 - (12 - i) = i := by omega
    rw [hidx] at h
    rw [List.getElem?_map, h]
    rfl
  refine ⟨hcol, hvs, ?_⟩
  intro b0
  apply List.ext_getElem?
  intro i
  by_cases hi : i < 13
  · rw [hvs b0 (List.replicate 13 100) (by simp) i hi]
    simp [List.getElem?_replicate, hi, value_to_height_hundred]
  · have h1 := hlen2 (push_all (metric_buffer_init b0) (List.replicate 13 100))
    rw [List.getElem?_eq_none (by omega), List.getElem?_eq_none (by simp; omega)]

/-- Witness for C3: starting from an all-zero `heights` array, thirteen pushes of `100` give
thirteen heights `8`. -/
theorem buffer_to_heights_order_witness :
    (List.replicate 13 0).length = kMatrixWidth ∧
    buffer_to_heights (some (push_all (metric_buffer_init zero_buffer) (List.replicate 13 100)))
      (List.replicate 13 0) = List.replicate 13 8 :=
  ⟨by decide, (buffer_to_heights_order (List.replicate 13 0) (by decide)).2.2 zero_buffer⟩

/-- Counterexample to C6 as stated: at the binary32 value `13107199 / 2097152`, the largest
one below `6.25`, the quotient by `100` rounds up and the sum with `0.5` rounds to `1`, so
`value_to_height` returns `1`, while the reference with exact arithmetic gives `0`. -/
theorem value_to_height_spec_counterexample :
    value_to_height (13107199 / 2097152) = 1 ∧
    valueToHeight_spec (13107199 / 2097152) 8 = 0 ∧
    (value_to_height (13107199 / 2097152) : Int) ≠ valueToHeight_spec (13107199 / 2097152) 8 := by
  refine ⟨value_to_height_below_threshold, valueToHeight_spec_below_threshold, ?_⟩
  rw [value_to_height_below_threshold, valueToHeight_spec_below_threshold]
  decide

/-- C6 (amended): between the clipping branches `value_to_height` is the floor of the
binary32 value of `value / 100 * 8 + 0.5`, each operation rounded.  It equals the exact
reference (`≤ 0` gives `0`, `≥ 100` gives `8`, otherwise `⌊value * 8 / 100 + 1/2⌋`) on both
clipping branches and wherever `value * 8 / 100 + 1/2` is at least `2^(-19)` below the next
integer; on every input it is the reference or the reference plus one, never less.
`value_to_height 0 = 0`, `value_to_height 100 = 8`, and every output is at most `8`. -/
theorem value_to_height_near_spec :
    (∀ v : ℚ, 0 < v → v < 100 →
      (value_to_height v : Int)
        = ⌊float_round (float_round (float_round (v / 100) * 8) + 1 / 2)⌋) ∧
    (∀ v : ℚ, v ≤ 0 ∨ v ≥ 100 → (value_to_height v : Int) = valueToHeight_spec v 8) ∧
    (∀ v : ℚ, v * 8 / 100 + 1 / 2 + 1 / 2 ^ 19 ≤ (⌊v * 8 / 100 + 1 / 2⌋ : ℚ) + 1 →
      (value_to_height v : Int) = valueToHeight_spec v 8) ∧
    (∀ v : ℚ, valueToHeight_spec v 8 ≤ (value_to_height v : Int) ∧
      (value_to_height v : Int) ≤ valueToHeight_spec v 8 + 1) ∧
    value_to_height 0 = 0 ∧ value_to_height 100 = 8 ∧
    (∀ v : ℚ, value_to_height v ≤ 8) := by
  refine ⟨value_to_height_mid, ?_, value_to_height_eq_spec_of_gap, value_to_height_sandwich,
    by simp [value_to_height], value_to_height_hundred, value_to_height_le⟩
  intro v hv
  rcases hv with h0 | h100
  · simp [value_to_height, valueToHeight_spec, h0]
  · have hn : ¬ v ≤ 0 := by
      have : (100 : ℚ) ≤ v := h100
      intro h; linarith
    simp [value_to_height, valueToHeight_spec, hn, h100, kMatrixHeight]

/-- C7: `value_to_height` is monotonic non-decreasing on all inputs, negative ones and ones
above `100` included: binary32 rounding, the floor and both clipping branches are
monotone. -/
theorem value_to_height_mono (a b : ℚ) (hab : a ≤ b) :
    value_to_height a ≤ value_to_height b := by
  by_cases ha : a ≤ 0
  · simp [value_to_height, ha]
  · exact value_to_height_monotone hab

/-- Witness for C7: `5` and `13107199 / 2097152` both lie between the clipping branches;
their heights are `0` and `1`. -/
theorem value_to_height_mono_witness :
    (5 : ℚ) ≤ 13107199 / 2097152 ∧
    value_to_height 5 ≤ value_to_height (13107199 / 2097152) :=
  ⟨by norm_num, value_to_height_mono 5 (13107199 / 2097152) (by norm_num)⟩

/-! ## Pixel scaling -/

/-- The value `set_pixel` stores, in closed form: no reduction modulo `2^16` or `2^8`
changes anything while the brightness fits in a byte. -/
theorem set_pixel_eq (b : Nat) (frame : List Nat) (x y shade : Nat)
    (hx : x < 13) (hy : y < 8) (hb : b < 256) :
    set_pixel b frame x y shade = frame.set (y * 13 + x) ((min shade 7 * b + 3) / 7) := by
  have hc : (if shade > 7 then 7 else shade) = min shade 7 := by
    split <;> omega
  have hm : min shade 7 ≤ 7 := Nat.min_le_right _ _
  have hprod : min shade 7 * b ≤ 7 * 255 :=
    Nat.mul_le_mul hm (by omega)
  simp only [set_pixel, kMatrixWidth, kMatrixHeight, kMaxShade, ge_iff_le, hc]
  rw [if_neg (by omega)]
  congr 1
  omega

theorem set_pixel_length (b : Nat) (frame : List Nat) (x y shade : Nat) :
    (set_pixel b frame x y shade).length = frame.length := by
  unfold set_pixel
  split
  · rfl
  · simp

/-- Round-half-up of `n / 7` in exact arithmetic is the integer division `(n + 3) / 7`. -/
theorem round_div_seven (n : Nat) : ⌊(n : ℚ) / 7 + 1 / 2⌋ = ((n + 3) / 7 : Nat) := by
  have h : (n : ℚ) / 7 + 1 / 2 = ((2 * n + 7 : Nat) : ℚ) / ((14 : Nat) : ℚ) := by
    push_cast; ring
  rw [h, Rat.floor_natCast_div_natCast]
  omega

/-- C8: for in-bounds `(x, y)`, every `shade` and every brightness `b ≤ 7`, the cell
`set_pixel` stores is round-half-up of the exact quotient `min shade 7 * b / 7`,
`⌊min shade 7 * b / 7 + 1/2⌋`, which is `(min shade 7 * b + 3) / 7` in integer arithmetic;
both 16-bit intermediates stay below `2^16`. -/
theorem set_pixel_rounds_half_up (frame : List Nat) (x y shade b : Nat)
    (hf : frame.length = kMatrixWidth * kMatrixHeight)
    (hx : x < kMatrixWidth) (hy : y < kMatrixHeight) (hb : b ≤ kMaxShade) :
    ((set_pixel b frame x y shade)[y * kMatrixWidth + x]?).map (fun c : Nat => (c : Int))
      = some ⌊((min shade 7 * b : Nat) : ℚ) / 7 + 1 / 2⌋ ∧
    (set_pixel b frame x y shade)[y * kMatrixWidth + x]? = some ((min shade 7 * b + 3) / 7) ∧
    min shade 7 * b < 2 ^ 16 ∧ min shade 7 * b + kMaxShade / 2 < 2 ^ 16 := by
  simp only [kMatrixWidth, kMatrixHeight, kMaxShade] at hf hx hy hb ⊢
  have hm : min shade 7 ≤ 7 := Nat.min_le_right _ _
  have hprod : min shade 7 * b ≤ 7 * 7 := Nat.mul_le_mul hm hb
  have hget : (set_pixel b frame x y shade)[y * 13 + x]? = some ((min shade 7 * b + 3) / 7) := by
    rw [set_pixel_eq b frame x y shade hx hy (by omega), List.getElem?_set_self (by omega)]
  refine ⟨?_, hget, by omega, by omega⟩
  rw [hget, round_div_seven]
  rfl

/-- Witness for C8: shade `200` (clipped to `7`) at brightness `3`, written at `(12, 7)`
into a cleared frame, stores `3`. -/
theorem set_pixel_rounds_half_up_witness :
    (clear_frame []).length = kMatrixWidth * kMatrixHeight ∧ 12 < kMatrixWidth ∧
    7 < kMatrixHeight ∧ 3 ≤ kMaxShade ∧
    (set_pixel 3 (clear_frame []) 12 7 200)[7 * kMatrixWidth + 12]? = some 3 := by
  have h := set_pixel_rounds_half_up (clear_frame []) 12 7 200 3 (by decide) (by decide)
    (by decide) (by decide)
  exact ⟨by decide, by decide, by decide, by decide, h.2.1⟩

/-- C9: for fixed shade and in-bounds `(x, y)`, the stored value is monotonic in the
brightness over `0..7`; brightness `0` stores `0` for every shade, and brightness `7`
stores exactly `min shade 7`. -/
theorem set_pixel_mono_brightness (frame : List Nat) (x y shade : Nat)
    (hf : frame.length = kMatrixWidth * kMatrixHeight)
    (hx : x < kMatrixWidth) (hy : y < kMatrixHeight) :
    (∀ b1 b2, b1 ≤ b2 → b2 ≤ kMaxShade →
      (set_pixel b1 frame x y shade).getD (y * kMatrixWidth + x) 0
        ≤ (set_pixel b2 frame x y shade).getD (y * kMatrixWidth + x) 0) ∧
    (set_pixel 0 frame x y shade)[y * kMatrixWidth + x]? = some 0 ∧
    (set_pixel kMaxShade frame x y shade)[y * kMatrixWidth + x]? = some (min shade 7) := by
  simp only [kMatrixWidth, kMatrixHeight, kMaxShade] at hf hx hy ⊢
  have hget : ∀ b, b < 256 →
      (set_pixel b frame x y shade)[y * 13 + x]? = some ((min shade 7 * b + 3) / 7) := by
    intro b hb
    rw [set_pixel_eq b frame x y shade hx hy hb, List.getElem?_set_self (by omega)]
  refine ⟨?_, ?_, ?_⟩
  · intro b1 b2 h12 h2
    rw [List.getD_eq_getElem?_getD, List.getD_eq_getElem?_getD, hget b1 (by omega),
      hget b2 (by omega)]
    simp only [Option.getD_some]
    apply Nat.div_le_div_right
    have := Nat.mul_le_mul_left (min shade 7) h12
    omega
  · rw [hget 0 (by omega)]
    simp
  · rw [hget 7 (by omega)]
    congr 1
    omega

/-- Witness for C9: at `(0, 0)` in a cleared frame, shade `5` stores `2` at brightness `3`
and `5` at brightness `7`. -/
theorem set_pixel_mono_brightness_witness :
    (clear_frame []).length = kMatrixWidth * kMatrixHeight ∧ 0 < kMatrixWidth ∧
    0 < kMatrixHeight ∧
    (set_pixel 3 (clear_frame []) 0 0 5).getD (0 * kMatrixWidth + 0) 0
      ≤ (set_pixel 7 (clear_frame []) 0 0 5).getD (0 * kMatrixWidth + 0) 0 ∧
    (set_pixel 0 (clear_frame []) 0 0 5)[0 * kMatrixWidth + 0]? = some 0 := by
  have h := set_pixel_mono_brightness (clear_frame []) 0 0 5 (by decide) (by decide)
    (by decide)
  exact ⟨by decide, by decide, by decide, h.1 3 7 (by decide) (by decide), h.2.1⟩

/-! ## Bar graph frame -/

theorem set_pixel_getElem? (b : Nat) (frame : List Nat) (x y shade j : Nat)
    (hx : x < 13) (hy : y < 8) (hb : b < 256) :
    (set_pixel b frame x y shade)[j]?
      = if j = y * 13 + x ∧ j < frame.length then some ((min shade 7 * b + 3) / 7)
        else frame[j]? := by
  rw [set_pixel_eq b frame x y shade hx hy hb]
  by_cases hj : y * 13 + x = j
  · subst hj
    by_cases hl : y * 13 + x < frame.length
    · rw [List.getElem?_set_self hl, if_pos ⟨rfl, hl⟩]
    · rw [List.getElem?_eq_none (by rw [List.length_set]; omega), if_neg (by omega),
        List.getElem?_eq_none (by omega)]
  · rw [List.getElem?_set_ne hj, if_neg (by omega)]

/-- The inner loop of `draw_bar_graph_on_matrix` for column `c` and clipped height `h`:
the cells of column `c` in rows `8 - h .. 7` receive the brightness, all others are kept. -/
theorem bar_column_cells (b : Nat) (hb : b < 256) (c : Nat) (hc : c < 13) (h : Nat)
    (hh : h ≤ 8) (f : List Nat) (hf : f.length = 104) :
    ((List.range h).foldl (fun f row => set_pixel b f c (kMatrixHeight - 1 - row) kMaxShade)
        f).length = 104 ∧
    ∀ col row, col < 13 → row < 8 →
      ((List.range h).foldl (fun f row => set_pixel b f c (kMatrixHeight - 1 - row) kMaxShade)
        f)[row * 13 + col]?
        = if col = c ∧ 8 - h ≤ row then some b else f[row * 13 + col]? := by
  induction h with
  | zero =>
    refine ⟨by simpa using hf, ?_⟩
    intro col row _ hrow
    rw [if_neg (by omega)]
    rfl
  | succ h ih =>
    obtain ⟨ihlen, ihcells⟩ := ih (by omega)
    rw [List.range_succ, List.foldl_append]
    simp only [List.foldl_cons, List.foldl_nil]
    refine ⟨by rw [set_pixel_length]; exact ihlen, ?_⟩
    intro col row hcol hrow
    simp only [kMatrixHeight, kMaxShade] at ihlen ihcells ⊢
    rw [set_pixel_getElem? b _ c (8 - 1 - h) 7 _ hc (by omega) hb, ihlen, ihcells col row hcol hrow]
    have hval : (min 7 7 * b + 3) / 7 = b := by
      rw [Nat.min_self]; omega
    rw [hval]
    by_cases h1 : row * 13 + col = (8 - 1 - h) * 13 + c
    · have h2 : col = c ∧ row = 8 - 1 - h := by omega
      rw [if_pos ⟨h1, by omega⟩, if_pos ⟨h2.1, by omega⟩]
    · rw [if_neg (by omega)]
      by_cases h3 : col = c ∧ 8 - h ≤ row
      · rw [if_pos h3, if_pos ⟨h3.1, by omega⟩]
      · rw [if_neg h3, if_neg (by omega)]

/-- The outer loop of `draw_bar_graph_on_matrix` after `n` columns. -/
theorem bar_columns_cells (b : Nat) (hb : b < 256) (heights : List Nat) (n : Nat)
    (hn : n ≤ 13) (f : List Nat) (hf : f.length = 104) :
    ((List.range n).foldl
      (fun f col =>
        let h := heights.getD col 0
        let h := if h > kMatrixHeight then kMatrixHeight else h
        (List.range h).foldl
          (fun f row =>
            let y := (kMatrixHeight - 1) - row
            set_pixel b f col y kMaxShade)
          f) f).length = 104 ∧
    ∀ col row, col < 13 → row < 8 →
      ((List.range n).foldl
        (fun f col =>
          let h := heights.getD col 0
          let h := if h > kMatrixHeight then kMatrixHeight else h
          (List.range h).foldl
            (fun f row =>
              let y := (kMatrixHeight - 1) - row
              set_pixel b f col y kMaxShade)
            f) f)[row * 13 + col]?
        = if col < n ∧ 8 - min (heights.getD col 0) 8 ≤ row then some b
          else f[row * 13 + col]? := by
  induction n with
  | zero =>
    refine ⟨by simpa using hf, ?_⟩
    intro col row _ _
    rw [if_neg (by omega)]
    rfl
  | succ n ih =>
    obtain ⟨ihlen, ihcells⟩ := ih (by omega)
    rw [List.range_succ, List.foldl_append]
    simp only [List.foldl_cons, List.foldl_nil]
    have hclip : (if heights.getD n 0 > kMatrixHeight then kMatrixHeight
        else heights.getD n 0) = min (heights.getD n 0) 8 := by
      simp only [kMatrixHeight]; split <;> omega
    rw [hclip]
    have hcol := bar_column_cells b hb n (by omega) (min (heights.getD n 0) 8)
      (Nat.min_le_right _ _) _ ihlen
    refine ⟨hcol.1, ?_⟩
    intro col row hc hr
    rw [hcol.2 col row hc hr, ihcells col row hc hr]
    by_cases h1 : col = n
    · subst h1
      by_cases h2 : 8 - min (heights.getD col 0) 8 ≤ row
      · rw [if_pos ⟨rfl, h2⟩, if_pos ⟨by omega, h2⟩]
      · rw [if_neg (by tauto), if_neg (by omega), if_neg (by tauto)]
    · rw [if_neg (by tauto)]
      by_cases h3 : col < n ∧ 8 - min (heights.getD col 0) 8 ≤ row
      · rw [if_pos h3, if_pos ⟨by omega, h3.2⟩]
      · rw [if_neg h3, if_neg (by omega)]

theorem bar_graph_frame_cells (b : Nat) (hb : b < 256) (frame heights : List Nat) :
    (bar_graph_frame b frame heights).length = 104 ∧
    ∀ col row, col < 13 → row < 8 →
      (bar_graph_frame b frame heights)[row * 13 + col]?
        = some (if 8 - min (heights.getD col 0) 8 ≤ row then b else 0) := by
  have h := bar_columns_cells b hb heights 13 (le_refl _) (clear_frame frame)
    (by simp [clear_frame, kMatrixWidth, kMatrixHeight])
  simp only [bar_graph_frame, kMatrixWidth]
  refine ⟨h.1, ?_⟩
  intro col row hc hr
  rw [h.2 col row hc hr]
  have hz : (clear_frame frame)[row * 13 + col]? = some 0 := by
    simp only [clear_frame, kMatrixWidth, kMatrixHeight, List.getElem?_replicate]
    rw [if_pos (by omega)]
  by_cases h1 : 8 - min (heights.getD col 0) 8 ≤ row
  · rw [if_pos ⟨hc, h1⟩, if_pos h1]
  · rw [if_neg (by tauto), if_neg h1, hz]

/-- Number of rows `row < 8` with `8 - m ≤ row`, for `m ≤ 8`. -/
theorem lit_rows_count (m : Nat) (hm : m ≤ 8) :
    ((List.range 8).filter (fun row => decide (8 - m ≤ row))).length = m := by
  interval_cases m <;> rfl

/-- C10: for a 13-entry `heights` array and brightness `b ≤ 7`, when `matrix_ready` is true
`draw_bar_graph_on_matrix` appends exactly one `draw` call to the driver log and changes
nothing else; the drawn frame has 104 cells, and cell `(col, row)` holds `b` (the
brightness-scaled `kMaxShade`) if `row ≥ 8 - min heights[col] 8` and `0` otherwise.  So each
column marks exactly `min heights[col] 8` cells, contiguous from row 7 upward, independently
of the other columns, and a height of `0` marks none. -/
theorem draw_bar_graph_frame (s : Globals) (heights : List Nat)
    (_hlen : heights.length = kMatrixWidth) (hb : s.g_brightness ≤ kMaxShade)
    (hready : s.g_display_state.matrix_ready = true) :
    ∃ frame : List Nat,
      draw_bar_graph_on_matrix s (some heights)
        = { s with g_display_state :=
            { s.g_display_state with
              matrix := s.g_display_state.matrix ++ [MatrixCall.draw frame] } } ∧
      frame.length = kMatrixWidth * kMatrixHeight ∧
      (∀ col row, col < kMatrixWidth → row < kMatrixHeight →
        frame[row * kMatrixWidth + col]?
          = some (if row ≥ kMatrixHeight - min (heights.getD col 0) kMatrixHeight
              then s.g_brightness else 0)) ∧
      (∀ col, col < kMatrixWidth → 0 < s.g_brightness →
        ((List.range kMatrixHeight).filter
          (fun row => decide (frame.getD (row * kMatrixWidth + col) 0 ≠ 0))).length
          = min (heights.getD col 0) kMatrixHeight) ∧
      (∀ col, col < kMatrixWidth → heights.getD col 0 = 0 →
        ∀ row, row < kMatrixHeight → frame[row * kMatrixWidth + col]? = some 0) := by
  simp only [kMaxShade] at hb
  have hcells := bar_graph_frame_cells s.g_brightness (by omega)
    (List.replicate (13 * 8) 0) heights
  simp only [kMatrixWidth, kMatrixHeight]
  refine ⟨bar_graph_frame s.g_brightness (List.replicate (13 * 8) 0) heights,
    ?_, hcells.1, hcells.2, ?_, ?_⟩
  · simp [draw_bar_graph_on_matrix, hready, kMatrixWidth, kMatrixHeight]
  · intro col hc hpos
    rw [← lit_rows_count (min (heights.getD col 0) 8) (Nat.min_le_right _ _)]
    congr 1
    apply List.filter_congr
    intro row hrow
    have hr : row < 8 := List.mem_range.mp hrow
    simp only [List.getD_eq_getElem?_getD, hcells.2 col row hc hr, Option.getD_some]
    apply decide_eq_decide.mpr
    by_cases h1 : 8 - min (heights[col]?.getD 0) 8 ≤ row
    · rw [if_pos h1]
      exact ⟨fun _ => h1, fun _ => by omega⟩
    · rw [if_neg h1]
      exact ⟨fun h => absurd rfl h, fun h => absurd h h1⟩
  · intro col hc hz row hr
    rw [hcells.2 col row hc hr, hz]
    simp only [Nat.zero_min, Nat.sub_zero]
    rw [if_neg (by omega)]

/-- Witness for C10: at program start with `matrix_ready` set, heights `[0, 1, …, 12]` at
brightness `7` append one frame to the empty driver log; its top-right cell (column 12,
height clipped to 8) is lit with `7`, its bottom-left cell (column 0, height 0) is `0`. -/
theorem draw_bar_graph_frame_witness :
    (List.range 13).length = kMatrixWidth ∧
    (7 : Nat) ≤ kMaxShade ∧
    ∃ frame : List Nat,
      (draw_bar_graph_on_matrix
        { boot with g_display_state := { boot.g_display_state with matrix_ready := true } }
        (some (List.range 13))).g_display_state.matrix = [MatrixCall.draw frame] ∧
      frame[0 * kMatrixWidth + 12]? = some 7 ∧ frame[7 * kMatrixWidth + 0]? = some 0 := by
  obtain ⟨frame, h, -, hcells, -⟩ := draw_bar_graph_frame
    { boot with g_display_state := { boot.g_display_state with matrix_ready := true } }
    (List.range 13) (by decide) (by decide) rfl
  refine ⟨by decide, by decide, frame, ?_, ?_, ?_⟩
  · rw [h]
    rfl
  · exact hcells 12 0 (by decide) (by decide)
  · exact hcells 0 7 (by decide) (by decide)

/-! ## No-op paths and frame effects -/

/-- C11: `draw_bar_graph_on_matrix` returns the globals unchanged (buffers, ready flag,
brightness and driver log) when `heights` is absent or `matrix_ready` is false, and the
driver log grows, by exactly one `draw` call, if and only if `heights` is present and
`matrix_ready` is true. -/
theorem draw_bar_graph_noop (s : Globals) :
    draw_bar_graph_on_matrix s none = s ∧
    (∀ hs, s.g_display_state.matrix_ready = false →
      draw_bar_graph_on_matrix s (some hs) = s) ∧
    (∀ heights : Option (List Nat),
      (∃ frame, (draw_bar_graph_on_matrix s heights).g_display_state.matrix
          = s.g_display_state.matrix ++ [MatrixCall.draw frame])
        ↔ (heights.isSome = true ∧ s.g_display_state.matrix_ready = true)) ∧
    (∀ heights : Option (List Nat),
      ¬ (heights.isSome = true ∧ s.g_display_state.matrix_ready = true) →
      draw_bar_graph_on_matrix s heights = s) := by
  have hnone : draw_bar_graph_on_matrix s none = s := rfl
  have hfalse : ∀ hs, s.g_display_state.matrix_ready = false →
      draw_bar_graph_on_matrix s (some hs) = s := by
    intro hs hr
    simp [draw_bar_graph_on_matrix, hr]
  refine ⟨hnone, hfalse, ?_, ?_⟩
  · intro heights
    cases heights with
    | none =>
      rw [hnone]
      constructor
      · rintro ⟨frame, hf⟩
        have := congrArg List.length hf
        simp at this
      · rintro ⟨h, -⟩
        simp at h
    | some hs =>
      cases hr : s.g_display_state.matrix_ready with
      | false =>
        rw [hfalse hs hr]
        constructor
        · rintro ⟨frame, hf⟩
          have := congrArg List.length hf
          simp at this
        · rintro ⟨-, h⟩
          simp at h
      | true =>
        constructor
        · intro _
          simp
        · intro _
          exact ⟨bar_graph_frame s.g_brightness
            (List.replicate (kMatrixWidth * kMatrixHeight) 0) hs,
            by simp [draw_bar_graph_on_matrix, hr]⟩
  · intro heights hn
    cases heights with
    | none => exact hnone
    | some hs =>
      apply hfalse
      cases hr : s.g_display_state.matrix_ready with
      | false => rfl
      | true => exact absurd ⟨rfl, hr⟩ hn

/-- C12: for every frame, brightness and shade, `set_pixel` with `x ≥ 13` or `y ≥ 8` returns
the frame unchanged; with in-bounds `(x, y)` it keeps the frame length and every cell other
than the one at index `y * 13 + x`. -/
theorem set_pixel_frame_effect (b : Nat) (frame : List Nat) (x y shade : Nat) :
    ((x ≥ kMatrixWidth ∨ y ≥ kMatrixHeight) → set_pixel b frame x y shade = frame) ∧
    (x < kMatrixWidth → y < kMatrixHeight →
      (set_pixel b frame x y shade).length = frame.length ∧
      ∀ j, j ≠ y * kMatrixWidth + x → (set_pixel b frame x y shade)[j]? = frame[j]?) := by
  refine ⟨?_, ?_⟩
  · intro h
    simp only [set_pixel, if_pos h]
  · intro hx hy
    refine ⟨set_pixel_length b frame x y shade, ?_⟩
    intro j hj
    have hn : ¬ (x ≥ kMatrixWidth ∨ y ≥ kMatrixHeight) := by
      simp only [ge_iff_le, not_or, not_le]
      exact ⟨hx, hy⟩
    simp only [set_pixel, if_neg hn]
    rw [List.getElem?_set_ne (Ne.symm hj)]

/-- C13: `system_display_push_sample` with a valid type (`< METRIC_COUNT`) applies
`metric_buffer_push` to `metrics[type]` and leaves the other buffers, the driver log, the
ready flag and the brightness unchanged; with an invalid type it returns the globals
unchanged. -/
theorem push_sample_routes (s : Globals) (type : Nat) (value : ℚ) :
    (∀ h : type < METRIC_COUNT,
      (system_display_push_sample s type value).g_display_state.metrics ⟨type, h⟩
        = metric_buffer_push (s.g_display_state.metrics ⟨type, h⟩) value ∧
      (∀ i : Fin METRIC_COUNT, i.val ≠ type →
        (system_display_push_sample s type value).g_display_state.metrics i
          = s.g_display_state.metrics i) ∧
      (system_display_push_sample s type value).g_display_state.matrix
        = s.g_display_state.matrix ∧
      (system_display_push_sample s type value).g_display_state.matrix_ready
        = s.g_display_state.matrix_ready ∧
      (system_display_push_sample s type value).g_brightness = s.g_brightness) ∧
    (type ≥ METRIC_COUNT → system_display_push_sample s type value = s) := by
  refine ⟨?_, ?_⟩
  · intro h
    simp only [system_display_push_sample, dif_pos h, Function.update_same, and_self,
      and_true, true_and]
    intro i hi
    have hne : i ≠ ⟨type, h⟩ := fun he => hi (by rw [he])
    rw [Function.update_noteq hne]
  · intro h
    have hn : ¬ type < METRIC_COUNT := Nat.not_lt.mpr h
    simp only [system_display_push_sample, dif_neg hn]

/-- C18: `metric_buffer_get_recent` returns `0` for an absent buffer and for every buffer
with `count = 0`, whatever its slots and `head` are and for every `recent_index`; in
particular index `5` on a freshly initialised buffer reads `0`. -/
theorem get_recent_empty (recent_index : Nat) :
    metric_buffer_get_recent none recent_index = 0 ∧
    (∀ (values : List ℚ) (head : Nat),
      metric_buffer_get_recent (some { values := values, head := head, count := 0 })
        recent_index = 0) ∧
    (∀ b0, metric_buffer_get_recent (some (metric_buffer_init b0)) recent_index = 0) ∧
    metric_buffer_get_recent (some (metric_buffer_init zero_buffer)) 5 = 0 := by
  refine ⟨rfl, ?_, ?_, ?_⟩
  · intro values head
    simp [metric_buffer_get_recent]
  · intro b0
    simp [metric_buffer_get_recent, metric_buffer_init]
  · simp [metric_buffer_get_recent, metric_buffer_init]

/-! ## Brightness and frame range -/

theorem set_brightness_le (s : Globals) (level : Nat) :
    (system_display_set_brightness s level).g_brightness ≤ kMaxShade := by
  simp only [system_display_set_brightness, kMaxShade]
  split <;> omega

theorem frame_in_range_clear (frame : List Nat) : frame_in_range (clear_frame frame) := by
  intro c hc
  rw [List.eq_of_mem_replicate hc]
  exact Nat.zero_le _

theorem frame_in_range_set_pixel (b : Nat) (hb : b ≤ kMaxShade) (frame : List Nat)
    (hf : frame_in_range frame) (x y shade : Nat) :
    frame_in_range (set_pixel b frame x y shade) := by
  unfold set_pixel
  split
  · exact hf
  · intro c hc
    rcases List.mem_or_eq_of_mem_set hc with h | h
    · exact hf c h
    · subst h
      simp only [kMaxShade] at hb ⊢
      have hclip : (if shade > 7 then 7 else shade) ≤ 7 := by split <;> omega
      have hprod : (if shade > 7 then 7 else shade) * b ≤ 7 * 7 := Nat.mul_le_mul hclip hb
      generalize (if shade > 7 then 7 else shade) * b = p at hprod
      omega

theorem frame_in_range_foldl {α : Type} (step : List Nat → α → List Nat)
    (hstep : ∀ f a, frame_in_range f → frame_in_range (step f a)) (l : List α)
    (frame : List Nat) (hf : frame_in_range frame) :
    frame_in_range (l.foldl step frame) := by
  induction l generalizing frame with
  | nil => exact hf
  | cons a l ih => exact ih _ (hstep frame a hf)

theorem frame_in_range_set_pixels (b : Nat) (hb : b ≤ kMaxShade) (frame : List Nat)
    (hf : frame_in_range frame) (ops : List (Nat × Nat × Nat)) :
    frame_in_range (set_pixels b frame ops) :=
  frame_in_range_foldl _ (fun f op h => frame_in_range_set_pixel b hb f h op.1 op.2.1 op.2.2)
    ops frame hf

theorem frame_in_range_bar_graph (b : Nat) (hb : b ≤ kMaxShade) (frame heights : List Nat) :
    frame_in_range (bar_graph_frame b frame heights) := by
  unfold bar_graph_frame
  apply frame_in_range_foldl _ _ _ _ (frame_in_range_clear frame)
  intro f col hf
  exact frame_in_range_foldl _ (fun f row h => frame_in_range_set_pixel b hb f h _ _ _) _ f hf

theorem frame_in_range_startup (b : Nat) (hb : b ≤ kMaxShade) (frame : List Nat)
    (scroll_pos : Nat) : frame_in_range (startup_frame b frame scroll_pos) := by
  unfold startup_frame
  apply frame_in_range_foldl _ _ _ _ (frame_in_range_clear frame)
  intro f col hf
  exact frame_in_range_foldl _ (fun f y h => frame_in_range_set_pixel b hb f h _ _ _) _ f hf

theorem log_in_range_append_draw (matrix : List MatrixCall) (frame : List Nat)
    (hm : log_in_range matrix) (hf : frame_in_range frame) :
    log_in_range (matrix ++ [MatrixCall.draw frame]) := by
  intro f hmem
  rcases List.mem_append.mp hmem with h | h
  · exact hm f h
  · simp only [List.mem_singleton, MatrixCall.draw.injEq] at h
    rw [h]
    exact hf

theorem log_in_range_animation (b : Nat) (hb : b ≤ kMaxShade) (n : Nat)
    (frame : List Nat) (matrix : List MatrixCall) (hm : log_in_range matrix) :
    log_in_range ((List.range n).foldl
      (fun (p : List Nat × List MatrixCall) scroll_pos =>
        let f := startup_frame b p.1 scroll_pos
        (f, p.2 ++ [MatrixCall.draw f]))
      (frame, matrix)).2 := by
  induction n with
  | zero => exact hm
  | succ n ih =>
    rw [List.range_succ, List.foldl_append]
    simp only [List.foldl_cons, List.foldl_nil]
    exact log_in_range_append_draw _ _ ih (frame_in_range_startup b hb _ n)

theorem system_display_init_brightness (s : Globals) :
    (system_display_init s).g_brightness = s.g_brightness := rfl

theorem log_in_range_init (s : Globals) (hb : s.g_brightness ≤ kMaxShade)
    (hm : log_in_range s.g_display_state.matrix) :
    log_in_range (system_display_init s).g_display_state.matrix := by
  simp only [system_display_init, system_display_init_startup]
  apply log_in_range_animation s.g_brightness hb
  intro f hmem
  rcases List.mem_append.mp hmem with h | h
  · exact hm f h
  · simp at h

/-- The brightness bound and the range of all drawn frames are kept by every API call. -/
theorem range_inv_step (s : Globals) (c : ApiCall)
    (h : s.g_brightness ≤ kMaxShade ∧ log_in_range s.g_display_state.matrix) :
    (step s c).g_brightness ≤ kMaxShade ∧ log_in_range (step s c).g_display_state.matrix := by
  obtain ⟨hb, hm⟩ := h
  cases c with
  | init => exact ⟨hb, log_in_range_init s hb hm⟩
  | push_sample type value =>
    simp only [step, system_display_push_sample]
    split
    · exact ⟨hb, hm⟩
    · exact ⟨hb, hm⟩
  | draw_bar_graph heights =>
    simp only [step, draw_bar_graph_on_matrix]
    split
    · exact ⟨hb, hm⟩
    · split
      · exact ⟨hb, hm⟩
      · exact ⟨hb, log_in_range_append_draw _ _ hm (frame_in_range_bar_graph _ hb _ _)⟩
  | set_brightness brightness => exact ⟨set_brightness_le s brightness, hm⟩

theorem range_inv_run (s : Globals) (calls : List ApiCall)
    (h : s.g_brightness ≤ kMaxShade ∧ log_in_range s.g_display_state.matrix) :
    (run s calls).g_brightness ≤ kMaxShade ∧
      log_in_range (run s calls).g_display_state.matrix := by
  induction calls generalizing s with
  | nil => exact h
  | cons c cs ih => exact ih (step s c) (range_inv_step s c h)

theorem range_inv_boot :
    boot.g_brightness ≤ kMaxShade ∧ log_in_range boot.g_display_state.matrix := by
  refine ⟨Nat.le_refl _, ?_⟩
  intro f hmem
  simp [boot] at hmem

/-- Counterexample to C14 as stated: the argument `256` is converted to the `uint8_t` value
`0`, so the stored brightness is `0`, not `min 256 7 = 7`. -/
theorem set_brightness_256_counterexample :
    (system_display_set_brightness boot 256).g_brightness = 0 ∧
    (system_display_set_brightness boot 256).g_brightness ≠ min 256 kMaxShade := by
  decide

/-- C14 (amended): `system_display_set_brightness` stores `min (level % 256) 7`, which is
`min level 7` for every `level` in the `uint8_t` range `0..255`; the over-range request
`999` is converted to `231` and stores `7`; the call changes nothing but the brightness;
and the brightness is at most `7` in every state reached from program start by API calls. -/
theorem set_brightness_clips (s : Globals) (level : Nat) :
    (system_display_set_brightness s level).g_brightness = min (level % 256) kMaxShade ∧
    (level < 256 →
      (system_display_set_brightness s level).g_brightness = min level kMaxShade) ∧
    (system_display_set_brightness s 999).g_brightness = 7 ∧
    (system_display_set_brightness s level).g_display_state = s.g_display_state ∧
    boot.g_brightness = 7 ∧
    (∀ calls, (run boot calls).g_brightness ≤ kMaxShade) := by
  have h1 : (system_display_set_brightness s level).g_brightness
      = min (level % 256) kMaxShade := by
    simp only [system_display_set_brightness, kMaxShade]
    split <;> omega
  refine ⟨h1, ?_, ?_, rfl, rfl, fun calls => (range_inv_run boot calls range_inv_boot).1⟩
  · intro hl
    rw [h1, Nat.mod_eq_of_lt hl]
  · simp [system_display_set_brightness, kMaxShade]

/-- C19: in every state reached from program start by API calls (so also by any sequence of
`system_display_set_brightness` calls) the brightness `b` is at most `7`, and then every
cell of a frame obtained from `clear_frame` by any sequence of `set_pixel` calls, of every
frame built by `draw_bar_graph_on_matrix` for any heights, and of every startup frame, is
at most `7`; every frame the driver has been asked to draw is in that range. -/
theorem frame_range_invariant (calls : List ApiCall) :
    (run boot calls).g_brightness ≤ kMaxShade ∧
    (∀ (frame : List Nat) (ops : List (Nat × Nat × Nat)),
      ∀ c ∈ set_pixels (run boot calls).g_brightness (clear_frame frame) ops,
        c ≤ kMaxShade) ∧
    (∀ (frame heights : List Nat),
      ∀ c ∈ bar_graph_frame (run boot calls).g_brightness frame heights, c ≤ kMaxShade) ∧
    (∀ (frame : List Nat) (scroll_pos : Nat),
      ∀ c ∈ startup_frame (run boot calls).g_brightness frame scroll_pos, c ≤ kMaxShade) ∧
    (∀ frame, MatrixCall.draw frame ∈ (run boot calls).g_display_state.matrix →
      ∀ c ∈ frame, c ≤ kMaxShade) := by
  have h := range_inv_run boot calls range_inv_boot
  refine ⟨h.1, ?_, ?_, ?_, h.2⟩
  · intro frame ops
    exact frame_in_range_set_pixels _ h.1 _ (frame_in_range_clear frame) ops
  · intro frame heights
    exact frame_in_range_bar_graph _ h.1 frame heights
  · intro frame scroll_pos
    exact frame_in_range_startup _ h.1 frame scroll_pos

/-! ## Capacity, initial baseline and the displayed window -/

/-- Counterexample to C17 as stated: after 14 pushes into an initialised buffer `count` is
`14` and `head` is `14`; with a capacity of 13 they would be `13` and `1`. -/
theorem capacity_thirteen_counterexample :
    (push_all (metric_buffer_init zero_buffer) (List.replicate 14 1)).count = 14 ∧
    (push_all (metric_buffer_init zero_buffer) (List.replicate 14 1)).head = 14 ∧
    (push_all (metric_buffer_init zero_buffer) (List.replicate 14 1)).count
      ≠ min 14 kMatrixWidth ∧
    (push_all (metric_buffer_init zero_buffer) (List.replicate 14 1)).head
      ≠ 14 % kMatrixWidth := by
  decide

/-- C17 (amended): the buffer capacity is the fixed constant `kHistoryLen = 60`, which is
not the display width `kMatrixWidth = 13`: an initialised buffer has 60 slots, a push keeps
the number of slots, wraps `head` modulo 60 and increments `count` only below 60, and after
`n` pushes `count = min n 60` and `head = n % 60`. -/
theorem capacity_is_history_len :
    kHistoryLen = 60 ∧ kMatrixWidth = 13 ∧
    (∀ b0, (metric_buffer_init b0).values.length = 60) ∧
    (∀ b v, (metric_buffer_push b v).values.length = b.values.length ∧
      (metric_buffer_push b v).head = (b.head + 1) % 60 ∧
      (metric_buffer_push b v).count = if b.count < 60 then b.count + 1 else b.count) ∧
    (∀ b0 vs, (push_all (metric_buffer_init b0) vs).count = min vs.length 60 ∧
      (push_all (metric_buffer_init b0) vs).head = vs.length % 60 ∧
      (push_all (metric_buffer_init b0) vs).values.length = 60) := by
  refine ⟨rfl, rfl, ?_, ?_, ?_⟩
  · intro b0
    simp [metric_buffer_init, kHistoryLen]
  · intro b v
    simp [metric_buffer_push, kHistoryLen]
  · intro b0 vs
    obtain ⟨hlen, hhead, hcount, -, -⟩ := holds_push_all b0 vs
    exact ⟨hcount, hhead, hlen⟩

theorem init_metric_holds (b : MetricBuffer) :
    Holds (init_metric b) (List.replicate 13 5) := by
  rw [init_metric_eq_push_all]
  exact holds_push_all b _

/-- After the pre-fill every index reads the baseline `5`. -/
theorem init_metric_get_recent (b : MetricBuffer) (k : Nat) :
    metric_buffer_get_recent (some (init_metric b)) k = 5 := by
  have h := init_metric_holds b
  have hcount : (init_metric b).count = 13 := by
    rw [h.2.2.1]; simp [kHistoryLen]
  have hlt : ∀ j, j < 13 → metric_buffer_get_recent (some (init_metric b)) j = 5 := by
    intro j hj
    have hg := holds_get_recent h j (by omega)
    rw [List.getElem?_replicate, if_pos (by simp; omega)] at hg
    exact (Option.some.inj hg).symm
  by_cases hk : k < 13
  · exact hlt k hk
  · rw [get_recent_clamp_eq _ k (by omega), hcount]
    exact hlt 12 (by omega)

theorem value_to_height_five : value_to_height 5 = 0 := by
  have e1 : float_round ((5 : ℚ) / 100) = 13421773 / 2 ^ 28 := by
    rw [float_round_binade _ (-5) (by norm_num) (by norm_num)]
    have hq : (max (-5 : ℤ) (-126) - 23) = -28 := by norm_num
    rw [hq, round_half_even_up _ 13421772 (by norm_num) (by norm_num)]
    norm_num
  have e2 : float_round ((13421773 : ℚ) / 2 ^ 28 * 8) = 13421773 / 2 ^ 25 :=
    (float_round_eq_self _ 13421773 (-25) (by norm_num) (by norm_num) (by norm_num)).trans
      (by norm_num)
  have e3 : float_round ((13421773 : ℚ) / 2 ^ 25 + 1 / 2) = 15099494 / 2 ^ 24 := by
    rw [float_round_binade _ (-1) (by norm_num) (by norm_num)]
    have hq : (max (-1 : ℤ) (-126) - 23) = -24 := by norm_num
    have hy : ((13421773 : ℚ) / 2 ^ 25 + 1 / 2) / 2 ^ (-24 : ℤ) = ((15099494 : ℤ) : ℚ) + 1 / 2 := by
      norm_num
    rw [hq, hy, round_half_even_tie]
    norm_num
  have h := value_to_height_mid 5 (by norm_num) (by norm_num)
  rw [e1, e2, e3] at h
  have hf : ⌊(15099494 : ℚ) / 2 ^ 24⌋ = 0 := Int.floor_eq_iff.mpr ⟨by norm_num, by norm_num⟩
  rw [hf] at h
  exact_mod_cast h

theorem buffer_to_heights_getElem? (b : MetricBuffer) (heights : List Nat)
    (hlen : heights.length = kMatrixWidth) (col : Nat) (hc : col < 13) :
    (buffer_to_heights (some b) heights)[col]?
      = some (value_to_height (metric_buffer_get_recent (some b) (12 - col))) := by
  simp only [kMatrixWidth] at hlen
  simp only [buffer_to_heights, kMatrixWidth]
  rw [foldl_set_range_getElem?
    (fun col => value_to_height (metric_buffer_get_recent (some b) (13 - 1 - col)))]
  rw [if_pos ⟨hc, by omega⟩]

theorem buffer_to_heights_length (b : MetricBuffer) (heights : List Nat) :
    (buffer_to_heights (some b) heights).length = heights.length := by
  simp only [buffer_to_heights, kMatrixWidth]
  exact foldl_set_range_length
    (fun col => value_to_height (metric_buffer_get_recent (some b) (13 - 1 - col))) 13 heights

theorem buffer_to_heights_after_init (s : Globals) (i : Fin METRIC_COUNT)
    (heights : List Nat) (hlen : heights.length = kMatrixWidth) :
    buffer_to_heights (some ((system_display_init s).g_display_state.metrics i)) heights
      = List.replicate 13 0 := by
  rw [system_display_init_metrics]
  apply List.ext_getElem?
  intro col
  by_cases hc : col < 13
  · rw [buffer_to_heights_getElem? _ heights hlen col hc, init_metric_get_recent,
      value_to_height_five, List.getElem?_replicate, if_pos hc]
  · have hl := buffer_to_heights_length (init_metric (s.g_display_state.metrics i)) heights
    simp only [kMatrixWidth] at hlen
    rw [List.getElem?_eq_none (by omega), List.getElem?_eq_none (by simp; omega)]

/-- Counterexample to C15 as stated: after `system_display_init` at program start, the
heights computed from the CPU buffer are all `0`: no column has a non-zero height. -/
theorem first_frame_counterexample :
    ¬ ∃ col, col < 13 ∧
      (buffer_to_heights (some ((system_display_init boot).g_display_state.metrics 0))
        (List.replicate 13 0)).getD col 0 ≠ 0 := by
  rw [buffer_to_heights_after_init boot 0 (List.replicate 13 0) (by decide)]
  rintro ⟨col, hc, hne⟩
  apply hne
  rw [List.getD_eq_getElem?_getD, List.getElem?_replicate, if_pos hc]
  rfl

/-- C15 (amended): after `system_display_init` from any state every metric buffer reads the
baseline `5` at every index, and `value_to_height 5 = 0` (round-half-up of `0.4`), so
`buffer_to_heights` on any metric buffer yields thirteen zero heights, and the frame built
by `draw_bar_graph_on_matrix` from them is all zero at any brightness: the first rendered
frame has no lit pixel. -/
theorem first_frame_all_zero (s : Globals) (i : Fin METRIC_COUNT) (heights : List Nat)
    (hlen : heights.length = kMatrixWidth) :
    (∀ k, metric_buffer_get_recent (some ((system_display_init s).g_display_state.metrics i)) k
      = 5) ∧
    value_to_height 5 = 0 ∧
    buffer_to_heights (some ((system_display_init s).g_display_state.metrics i)) heights
      = List.replicate 13 0 ∧
    (∀ (b : Nat) (frame : List Nat),
      bar_graph_frame b frame
        (buffer_to_heights (some ((system_display_init s).g_display_state.metrics i)) heights)
        = List.replicate (kMatrixWidth * kMatrixHeight) 0) ∧
    (draw_bar_graph_on_matrix (system_display_init s)
      (some (buffer_to_heights
        (some ((system_display_init s).g_display_state.metrics i)) heights))).g_display_state.matrix
      = (system_display_init s).g_display_state.matrix
        ++ [MatrixCall.draw (List.replicate (kMatrixWidth * kMatrixHeight) 0)] := by
  have hh := buffer_to_heights_after_init s i heights hlen
  have hbar : ∀ (b : Nat) (frame : List Nat),
      bar_graph_frame b frame (List.replicate 13 0)
        = List.replicate (kMatrixWidth * kMatrixHeight) 0 := by
    intro b frame
    rfl
  refine ⟨?_, value_to_height_five, hh, ?_, ?_⟩
  · intro k
    rw [system_display_init_metrics]
    exact init_metric_get_recent _ k
  · intro b frame
    rw [hh]
    exact hbar b frame
  · rw [hh]
    simp only [draw_bar_graph_on_matrix]
    have hr : (system_display_init s).g_display_state.matrix_ready = true := rfl
    rw [if_neg (by rw [hr]; simp)]
    simp only [hbar]

/-- Witness for C15 (amended): at program start with a zeroed 13-entry `heights` array, the
CPU buffer gives thirteen zero heights after `system_display_init`. -/
theorem first_frame_all_zero_witness :
    (List.replicate 13 0).length = kMatrixWidth ∧
    buffer_to_heights (some ((system_display_init boot).g_display_state.metrics 0))
      (List.replicate 13 0) = List.replicate 13 0 :=
  ⟨by decide, (first_frame_all_zero boot 0 (List.replicate 13 0) (by decide)).2.2.1⟩

theorem init_metric_fields (b : MetricBuffer) :
    (init_metric b).count = 13 ∧ (init_metric b).head = 13 ∧
    (init_metric b).values = List.replicate 13 5 ++ List.replicate 47 0 := by
  obtain ⟨hlen, hhead, hcount, hrecent, hzero⟩ := init_metric_holds b
  simp only [kHistoryLen, List.length_replicate] at hlen hhead hcount hrecent hzero
  refine ⟨hcount, hhead, ?_⟩
  apply List.ext_getElem?
  intro j
  by_cases h13 : j < 13
  · have h := hrecent j h13 (by omega)
    rw [Nat.mod_eq_of_lt (by omega)] at h
    rw [h, List.getElem?_append_left (by simp; omega)]
  · by_cases h60 : j < 60
    · rw [hzero j (by omega) h60, List.getElem?_append_right (by simp; omega),
        List.getElem?_replicate, if_pos (by simp; omega)]
    · rw [List.getElem?_eq_none (by omega), List.getElem?_eq_none (by simp; omega)]

theorem startup_frame_local (b : Nat) (f g : List Nat) (scroll_pos : Nat) :
    startup_frame b f scroll_pos = startup_frame b g scroll_pos := by
  simp only [startup_frame, clear_frame]

/-- The animation statements, run one by one, produce the driver log of the animation loop
of `system_display_init_startup`. -/
theorem init_animate_fold (st : Globals) (frame : List Nat) (n : Nat) :
    (List.range n).foldl (fun s k => init_stmt_exec s (InitStmt.animate k)) st
      = { st with g_display_state := { st.g_display_state with
          matrix := ((List.range n).foldl
            (fun (p : List Nat × List MatrixCall) scroll_pos =>
              let f := startup_frame st.g_brightness p.1 scroll_pos
              (f, p.2 ++ [MatrixCall.draw f]))
            (frame, st.g_display_state.matrix)).2 } } := by
  induction n with
  | zero => rfl
  | succ n ih =>
    rw [List.range_succ, List.foldl_append, List.foldl_append, ih]
    simp only [List.foldl_cons, List.foldl_nil, init_stmt_exec]
    rw [startup_frame_local st.g_brightness (List.replicate (kMatrixWidth * kMatrixHeight) 0)]

theorem init_stmts_eq (s : Globals) :
    system_display_init_stmts.foldl init_stmt_exec s = system_display_init s := by
  simp only [system_display_init_stmts, List.foldl_append, List.foldl_cons, List.foldl_nil,
    List.foldl_map]
  rw [init_animate_fold _ (List.replicate (kMatrixWidth * kMatrixHeight) 0)]
  simp only [init_stmt_exec, system_display_init, system_display_init_startup,
    List.append_assoc, List.cons_append, List.nil_append]

theorem init_stmts_ready_false (s : Globals) (n : Nat) (h2 : 2 ≤ n)
    (hn : n < system_display_init_stmts.length) :
    ((system_display_init_stmts.take n).foldl init_stmt_exec s).g_display_state.matrix_ready
      = false := by
  have hlen : system_display_init_stmts.length = 19 := rfl
  rw [hlen] at hn
  interval_cases n <;> rfl

/-- C16: after `system_display_init` from any prior state each of the three metric buffers
has `count = 13`, reads `5` at every index, and its slot array is thirteen `5`s followed by
47 zeros; `matrix_ready` is true.  Running the body statement by statement gives the same
final state, `matrix_ready` is false after every proper prefix that contains the statement
`matrix_ready = false` (all of the driver bring-up and the animation), no driver call
precedes that statement, and `matrix_ready = true` is the last statement. -/
theorem init_postcondition (s : Globals) :
    (∀ i : Fin METRIC_COUNT,
      ((system_display_init s).g_display_state.metrics i).count = 13 ∧
      ((system_display_init s).g_display_state.metrics i).values
        = List.replicate 13 5 ++ List.replicate 47 0 ∧
      ∀ k, metric_buffer_get_recent
        (some ((system_display_init s).g_display_state.metrics i)) k = 5) ∧
    (system_display_init s).g_display_state.matrix_ready = true ∧
    system_display_init_stmts.foldl init_stmt_exec s = system_display_init s ∧
    (∀ n, 2 ≤ n → n < system_display_init_stmts.length →
      ((system_display_init_stmts.take n).foldl init_stmt_exec s).g_display_state.matrix_ready
        = false) ∧
    (∀ n, n ≤ 2 →
      ((system_display_init_stmts.take n).foldl init_stmt_exec s).g_display_state.matrix
        = s.g_display_state.matrix) ∧
    system_display_init_stmts.getLast? = some InitStmt.ready_true := by
  refine ⟨?_, rfl, init_stmts_eq s, init_stmts_ready_false s, ?_, rfl⟩
  · intro i
    rw [system_display_init_metrics]
    have hf := init_metric_fields (s.g_display_state.metrics i)
    exact ⟨hf.1, hf.2.2, init_metric_get_recent _⟩
  · intro n hn
    interval_cases n <;> rfl

theorem push_samples_metrics (st : Globals) (type : Nat) (ht : type < METRIC_COUNT)
    (ps : List ℚ) :
    (push_samples st type ps).g_display_state.metrics ⟨type, ht⟩
      = push_all (st.g_display_state.metrics ⟨type, ht⟩) ps := by
  induction ps generalizing st with
  | nil => rfl
  | cons p ps ih =>
    have h1 : push_samples st type (p :: ps)
        = push_samples (system_display_push_sample st type p) type ps := rfl
    have h2 : push_all (st.g_display_state.metrics ⟨type, ht⟩) (p :: ps)
        = push_all (metric_buffer_push (st.g_display_state.metrics ⟨type, ht⟩) p) ps := rfl
    rw [h1, h2, ih]
    simp only [system_display_push_sample, dif_pos ht, Function.update_same]

/-- After `system_display_init` and pushes `ps` to one metric type, that buffer holds the
history of thirteen `5`s followed by `ps`. -/
theorem push_samples_holds (s0 : Globals) (type : Nat) (ht : type < METRIC_COUNT)
    (ps : List ℚ) :
    Holds ((push_samples (system_display_init s0) type ps).g_display_state.metrics ⟨type, ht⟩)
      (List.replicate 13 5 ++ ps) := by
  rw [push_samples_metrics, system_display_init_metrics, init_metric_eq_push_all,
    ← push_all_append]
  exact holds_push_all _ _

/-- C20: after `system_display_init` (from any state) and any sequence `ps` of `n` samples
pushed with `system_display_push_sample` to one valid metric type, the history `s` is
thirteen `5`s followed by `ps`; `buffer_to_heights` on that buffer gives
`heights[col] = value_to_height s[n + col]` for every `col < 13`, the index `12 - col`
passed to `metric_buffer_get_recent` is below `count` (the clamp branch is not taken), and
the value read there is `s[n + col]` itself (none of the 13 displayed samples has been
overwritten), also after the 60-slot ring has wrapped. -/
theorem displayed_window (s0 : Globals) (type : Nat) (ht : type < METRIC_COUNT) (ps : List ℚ)
    (heights : List Nat) (hlen : heights.length = kMatrixWidth) (col : Nat) (hc : col < 13) :
    (buffer_to_heights
        (some ((push_samples (system_display_init s0) type ps).g_display_state.metrics
          ⟨type, ht⟩)) heights)[col]?
      = ((List.replicate 13 5 ++ ps)[ps.length + col]?).map value_to_height ∧
    12 - col
      < ((push_samples (system_display_init s0) type ps).g_display_state.metrics
          ⟨type, ht⟩).count ∧
    (List.replicate 13 5 ++ ps)[ps.length + col]?
      = some (metric_buffer_get_recent
          (some ((push_samples (system_display_init s0) type ps).g_display_state.metrics
            ⟨type, ht⟩)) (12 - col)) := by
  have h := push_samples_holds s0 type ht ps
  have hcount := h.2.2.1
  simp only [kHistoryLen, List.length_append, List.length_replicate] at hcount
  have hlt : 12 - col
      < ((push_samples (system_display_init s0) type ps).g_display_state.metrics
          ⟨type, ht⟩).count := by
    omega
  have hget := holds_get_recent h (12 - col) hlt
  have hidx : (List.replicate 13 5 ++ ps).length - 1 - (12 - col) = ps.length + col := by
    simp only [List.length_append, List.length_replicate]
    omega
  rw [hidx] at hget
  refine ⟨?_, hlt, hget⟩
  rw [buffer_to_heights_getElem? _ heights hlen col hc, hget]
  rfl

/-- Witness for C20: 70 CPU samples `0, …, 69` pushed after `system_display_init` at program
start wrap the ring; column `0` then shows the height of sample `57`, which is `5`. -/
theorem displayed_window_witness :
    0 < METRIC_COUNT ∧ (List.replicate 13 0).length = kMatrixWidth ∧ 0 < 13 ∧
    (buffer_to_heights
        (some ((push_samples (system_display_init boot) 0
          ((List.range 70).map (fun i : Nat => (i : ℚ)))).g_display_state.metrics
          ⟨0, by decide⟩)) (List.replicate 13 0))[0]?
      = some (value_to_height 57) := by
  have h := (displayed_window boot 0 (by decide)
    ((List.range 70).map (fun i : Nat => (i : ℚ))) (List.replicate 13 0) (by decide) 0
    (by decide)).1
  refine ⟨by decide, by decide, by decide, ?_⟩
  rw [h]
  simp

end SystemDisplay
